import Mathlib

/-!
# Path interceptor and lint rule of the commerce-testing documentation site

Shallow embedding of `.github/scripts/gh-pages-interceptor.js` and
`.markdownlint-custom-rules.js`.

JavaScript strings are sequences of UTF-16 code units.  They are modelled as
`List Char`, one list element per code unit; every operation used by the two
scripts (`startsWith`, `includes`, `substring`, `+`, `length`, and regular
expressions built from single-character classes) treats the elements as atoms.
-/

namespace CommerceTesting

/-! ## JavaScript strings and values -/

/-- A JavaScript string: the list of its code units. -/
abbrev JSString := List Char

/-- The method `String.prototype.startsWith` with a single argument. -/
def startsWith (s p : JSString) : Bool := p.isPrefixOf s

/-- The method `String.prototype.endsWith` with a single argument. -/
def endsWith (s p : JSString) : Bool := p.isSuffixOf s

/-- The method `String.prototype.includes`: `p` occurs in `s` at some index. -/
def includes : JSString → JSString → Bool
  | [], p => startsWith [] p
  | c :: t, p => startsWith (c :: t) p || includes t p

/-- The method `String.prototype.substring` with a single argument. -/
def substring (s : JSString) (start : Nat) : JSString := s.drop start

/-- The JavaScript values that reach the interceptor.  A `Request` carries its
`url` and the rest of its state, which the interceptor never inspects. -/
inductive JSValue where
  | undefined
  | null
  | boolean (b : Bool)
  | number (n : Int)
  | string (s : JSString)
  | request (url : JSString) (rest : Nat)
  | object (id : Nat)
  deriving DecidableEq, Repr

/-- Truthiness of the result of `fix`, as tested by `if (fixed)`: `null` and
the empty string are falsy. -/
def truthy : Option JSString → Bool
  | none => false
  | some s => !s.isEmpty

/-! ## `fix` (gh-pages-interceptor.js, lines 18-62) -/

/-- The constant `var BASE = "/commerce-testing"`. -/
def BASE : JSString := "/commerce-testing".toList

/-- The three recognized prefixes tested on a path. -/
def recognized (path : JSString) : Bool :=
  startsWith path "/hlx_statics".toList ||
  startsWith path "/franklin_assets".toList ||
  startsWith path "/commerce".toList

/-- The first branch of `fix`, for full URLs; `none` when it falls through. -/
def fixFull (ORIGIN url : JSString) : Option JSString :=
  if startsWith url ORIGIN && !includes url BASE then
    let path := substring url ORIGIN.length
    if recognized path then some (ORIGIN ++ BASE ++ path) else none
  else none

/-- The second branch of `fix`, for root-relative paths. -/
def fixRelative (url : JSString) : Option JSString :=
  if startsWith url "/".toList && !startsWith url BASE && recognized url then
    some (BASE ++ url)
  else none

/-- The function `fix(url)`; `ORIGIN` is the value of `location.origin` and
`none` stands for the returned `null`. -/
def fix (ORIGIN : JSString) (url : JSValue) : Option JSString :=
  match url with
  | .string s =>
    if s.isEmpty then none
    else
      match fixFull ORIGIN s with
      | some r => some r
      | none => fixRelative s
  | _ => none

/-! ## Network interception (gh-pages-interceptor.js, lines 64-84) -/

/-- A call of an original platform function: the receiver and the argument
list it is given. -/
structure Call where
  thisArg : JSValue
  args : List JSValue
  deriving DecidableEq, Repr

/-- The replacement installed as `window.fetch`: the call it makes to
`originalFetch`.  `newRequest fixed input` stands for the platform
constructor call `new Request(fixed, input)`. -/
def patchedFetch (ORIGIN : JSString) (newRequest : JSString → JSValue → JSValue)
    (thisArg input options : JSValue) : Call :=
  match input with
  | .string _ =>
    let fixed := fix ORIGIN input
    match fixed with
    | some f => if truthy fixed then ⟨thisArg, [.string f, options]⟩ else ⟨thisArg, [input, options]⟩
    | none => ⟨thisArg, [input, options]⟩
  | .request url _ =>
    let fixed := fix ORIGIN (.string url)
    match fixed with
    | some f =>
      if truthy fixed then ⟨thisArg, [newRequest f input, options]⟩ else ⟨thisArg, [input, options]⟩
    | none => ⟨thisArg, [input, options]⟩
  | _ => ⟨thisArg, [input, options]⟩

/-- The replacement installed as `XMLHttpRequest.prototype.open`: the call it
makes to `originalXHROpen`, given the `arguments` object as a list. -/
def patchedOpen (ORIGIN : JSString) (thisArg : JSValue) (arguments : List JSValue) : Call :=
  let method := arguments.getD 0 .undefined
  let url := arguments.getD 1 .undefined
  let fixed := fix ORIGIN url
  let url := match fixed with
    | some f => if truthy fixed then .string f else url
    | none => url
  ⟨thisArg, [method, url] ++ arguments.drop 2⟩

/-! ## Regular expressions

The three regular-expression literals of the two scripts use literal
characters, single-character classes, greedy `*` and `+` on a class, one
optional group with an alternation, and `$`.  `Regex` is the syntax of that
fragment and `Regex.run` the backtracking matcher of the language: greedy
quantifiers try the longest repetition first, an alternation tries its left
branch first, and a failure downstream makes the matcher fall back to the next
choice. -/

/-- Syntax of the regular expressions in use. -/
inductive Regex where
  | eps
  | set (p : Char → Bool)
  | seq (r₁ r₂ : Regex)
  | alt (r₁ r₂ : Regex)
  | opt (r : Regex)
  | star (p : Char → Bool)
  | eoi

namespace Regex

/-- A literal character. -/
def lit (c : Char) : Regex := set (fun x => x == c)

/-- Greedy `+` on a class. -/
def plus (p : Char → Bool) : Regex := seq (set p) (star p)

/-- A sequence of literal characters. -/
def str : JSString → Regex
  | [] => eps
  | c :: cs => seq (lit c) (str cs)

/-- Greedy repetition of a class in front of the continuation `k`. -/
def runStar (p : Char → Bool) : JSString → (JSString → Option JSString) → Option JSString
  | [], k => k []
  | c :: t, k =>
    if p c then
      match runStar p t k with
      | some out => some out
      | none => k (c :: t)
    else k (c :: t)

/-- Backtracking matcher: `run r s k` matches `r` at the start of `s` and
passes what is left of `s` to the continuation `k`; the result is what is left
after the whole match, or `none` when every choice fails. -/
def run : Regex → JSString → (JSString → Option JSString) → Option JSString
  | eps, s, k => k s
  | set _, [], _ => none
  | set p, c :: t, k => if p c then k t else none
  | seq r₁ r₂, s, k => run r₁ s (fun s' => run r₂ s' k)
  | alt r₁ r₂, s, k =>
    match run r₁ s k with
    | some out => some out
    | none => run r₂ s k
  | opt r, s, k =>
    match run r s k with
    | some out => some out
    | none => k s
  | star p, s, k => runStar p s k
  | eoi, s, k => if s.isEmpty then k s else none

/-- Leftmost match in `s`, which is the part of the subject from index `i` on:
the index of the match and the matched text. -/
def searchFrom (r : Regex) : JSString → Nat → Option (Nat × JSString)
  | [], i =>
    match run r [] some with
    | some _ => some (i, [])
    | none => none
  | c :: t, i =>
    match run r (c :: t) some with
    | some rest => some (i, (c :: t).take ((c :: t).length - rest.length))
    | none => searchFrom r t (i + 1)

/-- The method `RegExp.prototype.exec` of a regular expression with the `g`
flag: the match (index and text) or `null`, and the new value of `lastIndex`. -/
def exec (r : Regex) (s : JSString) (lastIndex : Nat) : Option (Nat × JSString) × Nat :=
  if lastIndex > s.length then (none, 0)
  else
    match searchFrom r (s.drop lastIndex) lastIndex with
    | some (index, text) => (some (index, text), index + text.length)
    | none => (none, 0)

/-- The method `String.prototype.replace` with a regular expression without
the `g` flag and a replacement string without `$` patterns. -/
def replace (s : JSString) (r : Regex) (replacement : JSString) : JSString :=
  match searchFrom r s 0 with
  | some (index, text) => s.take index ++ replacement ++ s.drop (index + text.length)
  | none => s

/-- Declarative reading of a regular expression: `Matches r w rest` says that
`r` can match exactly `w` when `rest` is what follows in the subject. -/
def Matches : Regex → JSString → JSString → Prop
  | eps, w, _ => w = []
  | set p, w, _ => ∃ c, w = [c] ∧ p c = true
  | seq r₁ r₂, w, rest =>
    ∃ w₁ w₂, w = w₁ ++ w₂ ∧ Matches r₁ w₁ (w₂ ++ rest) ∧ Matches r₂ w₂ rest
  | alt r₁ r₂, w, rest => Matches r₁ w rest ∨ Matches r₂ w rest
  | opt r, w, rest => w = [] ∨ Matches r w rest
  | star p, w, _ => ∀ c ∈ w, p c = true
  | eoi, w, rest => w = [] ∧ rest = []

end Regex

/-- The class `\s`: the white space and line terminator code units. -/
def isSpace (c : Char) : Bool :=
  let n := c.toNat
  (9 ≤ n && n ≤ 13) || n == 32 || n == 160 || n == 5760 || (8192 ≤ n && n ≤ 8202) ||
    n == 8232 || n == 8233 || n == 8239 || n == 8287 || n == 12288 || n == 65279

/-! ## URL normalization (gh-pages-interceptor.js, lines 21-28) -/

/-- The fields of `location` read by the script. -/
structure Location where
  pathname : JSString
  search : JSString
  hash : JSString
  deriving DecidableEq, Repr

/-- A call `history.replaceState(state, unused, url)`. -/
structure ReplaceStateCall where
  state : JSValue
  unused : JSString
  url : JSString
  deriving DecidableEq, Repr

/-- The regular expression `/\/index\.html$/`. -/
def indexHtmlPattern : Regex := .seq (.str "/index.html".toList) .eoi

/-- The URL normalization block: the calls of `history.replaceState` it makes. -/
def normalizeUrl (location : Location) : List ReplaceStateCall :=
  if endsWith location.pathname "/index.html".toList then
    [⟨.null, [],
      Regex.replace location.pathname indexHtmlPattern "/".toList
        ++ location.search ++ location.hash⟩]
  else []

/-! ## The rule `no-link-attributes` (.markdownlint-custom-rules.js) -/

/-- The fields of a markdown-it token read by the rule. -/
structure Token where
  type : JSString
  lineNumber : Nat
  line : JSString
  deriving DecidableEq, Repr

/-- The object handed to `onError`. -/
structure ErrorInfo where
  lineNumber : Nat
  detail : JSString
  context : JSString
  range : Nat × Nat
  deriving DecidableEq, Repr

/-- The regular expression
`/\](?:\([^\)]+\)|\[[^\]]*\])?\s*\{:[^}]+\}/g`. -/
def linkAttributePattern : Regex :=
  .seq (.lit ']')
    (.seq
      (.opt (.alt
        (.seq (.lit '(') (.seq (.plus (fun x => x != ')')) (.lit ')')))
        (.seq (.lit '[') (.seq (.star (fun x => x != ']')) (.lit ']')))))
      (.seq (.star isSpace)
        (.seq (.lit '{') (.seq (.lit ':') (.seq (.plus (fun x => x != '}')) (.lit '}'))))))

/-- The `detail` text of every reported error. -/
def errorDetail : JSString := "Link attributes like '\x7b:target=\"_blank\"\x7d' are not allowed".toList

/-- The loop `while ((match = linkAttributePattern.exec(line)) !== null)`,
started with the given `lastIndex`: the `onError` calls it makes, in order.
Each iteration uses one unit of fuel; `none` means the fuel ran out. -/
def execLoop (line : JSString) (lineNumber : Nat) : Nat → Nat → Option (List ErrorInfo)
  | 0, _ => none
  | fuel + 1, lastIndex =>
    match Regex.exec linkAttributePattern line lastIndex with
    | (some (index, matchText), lastIndex') =>
      match execLoop line lineNumber fuel lastIndex' with
      | some errors =>
        some (⟨lineNumber, errorDetail, matchText, (index + 1, matchText.length)⟩ :: errors)
      | none => none
    | (none, _) => some []

/-- The callback `forToken`: the `onError` calls made for one token. -/
def forToken (fuel : Nat) (token : Token) : Option (List ErrorInfo) :=
  if token.type = "inline".toList then execLoop token.line token.lineNumber fuel 0
  else some []

/-- The rule function: the `onError` calls made for `params.tokens`, in order. -/
def rule (fuel : Nat) : List Token → Option (List ErrorInfo)
  | [] => some []
  | token :: tokens =>
    match forToken fuel token, rule fuel tokens with
    | some errors, some more => some (errors ++ more)
    | _, _ => none

/-! ## TOC filtering (gh-pages-interceptor.js, lines 149-189) -/

/-- An anchor found by `nav.querySelectorAll("a")`: the value of its
`fullPath` attribute and the `pathname` of `new URL(anchor.href)`, which is
`none` when the constructor throws a `TypeError` because `anchor.href` does not
parse as a URL. -/
structure Anchor where
  fullPath : Option JSString
  pathname : Option JSString
  deriving DecidableEq, Repr

/-- What the loop finds for an item: no direct child link when
`li.querySelector(":scope > a")` is `null`, a `TypeError` thrown by
`new URL(link.href, ORIGIN)`, or the `pathname` of that URL. -/
inductive DirectLink where
  | absent
  | unparsable
  | pathname (p : JSString)
  deriving DecidableEq, Repr

/-- An item found by `toc.querySelectorAll(":scope > ul li")`: its class list
and its direct child link. -/
structure TocItem where
  classList : List JSString
  link : DirectLink
  deriving DecidableEq, Repr

/-- The part of the document read by `filterToc`: the anchors of
`#navigation-links` and the items of `.side-nav-subpages-section`, each absent
when the selector finds nothing. -/
structure TocDocument where
  nav : Option (List Anchor)
  toc : Option (List TocItem)
  deriving DecidableEq, Repr

/-- The end of a call of `filterToc`: the document it leaves, and whether the
call ended by a `TypeError` instead of returning. -/
structure FilterResult where
  document : TocDocument
  threw : Bool
  deriving DecidableEq, Repr

/-- The regular expression `/\/$/`. -/
def trailingSlashPattern : Regex := .seq (.lit '/') .eoi

/-- The method `DOMTokenList.add` with one token. -/
def classListAdd (classList : List JSString) (token : JSString) : List JSString :=
  if token ∈ classList then classList else classList ++ [token]

/-- The body of the loop over the anchors: the new values of `bestMatch` and
`bestLength`, or `none` when `new URL(anchor.href)` throws. -/
def bestMatchStep (currentPath : JSString) (state : Option Anchor × Nat) (anchor : Anchor) :
    Option (Option Anchor × Nat) :=
  if truthy anchor.fullPath then some state
  else
    match anchor.pathname with
    | none => none
    | some pathname =>
      let href := Regex.replace pathname trailingSlashPattern []
      if currentPath = href then some (some anchor, 999)
      else if startsWith currentPath (href ++ "/".toList) && href.length > state.2 then
        some (some anchor, href.length)
      else some state

/-- The loop over the anchors: the final `bestMatch` and `bestLength`, or
`none` when the loop is left by a `TypeError`. -/
def bestMatchLoop (currentPath : JSString) (anchors : List Anchor) :
    Option (Option Anchor × Nat) :=
  anchors.foldlM (bestMatchStep currentPath) (none, 0)

/-- The loop over the items of the section: the items it leaves, and whether
it was left by a `TypeError`, in which case the items after the one that threw
are as they were. -/
def hideItems (topPath : JSString) : List TocItem → List TocItem × Bool
  | [] => ([], false)
  | li :: rest =>
    match li.link with
    | .absent =>
      let r := hideItems topPath rest
      ({ li with classList := classListAdd li.classList "hidden".toList } :: r.1, r.2)
    | .unparsable => (li :: rest, true)
    | .pathname linkPath =>
      let r := hideItems topPath rest
      if !startsWith linkPath topPath then
        ({ li with classList := classListAdd li.classList "hidden".toList } :: r.1, r.2)
      else (li :: r.1, r.2)

/-- The function `filterToc`, given `location.pathname`. -/
def filterToc (pathname : JSString) (document : TocDocument) : FilterResult :=
  match document.nav with
  | none => ⟨document, false⟩
  | some anchors =>
    let currentPath := Regex.replace pathname trailingSlashPattern []
    match bestMatchLoop currentPath anchors with
    | none => ⟨document, true⟩
    | some (none, _) => ⟨document, false⟩
    | some (some bestMatch, _) =>
      match bestMatch.pathname with
      | none => ⟨document, true⟩
      | some topPath =>
        match document.toc with
        | none => ⟨document, false⟩
        | some items =>
          let r := hideItems topPath items
          ⟨{ document with toc := some r.1 }, r.2⟩

/-! ## DOM element fixing (gh-pages-interceptor.js, lines 86-116)

The document is a tree of elements.  An element is identified by the path of
child indexes that leads to it from the root of the tree, and its attributes
live in a store indexed by these paths, which `setAttribute` updates in place. -/

/-- The tree of elements, without their attributes. -/
inductive Shape where
  | node (children : List Shape)

/-- An element: the child indexes on the way from the root. -/
abbrev NodeId := List Nat

/-- The attributes of one element, in order, as pairs of a name and a value. -/
abbrev Attrs := List (JSString × JSString)

/-- The document: the tree and the attributes of each element. -/
structure DOM where
  shape : Shape
  attrs : NodeId → Attrs

/-- The part of the tree below the element `q`, when `q` is in the tree. -/
def Shape.sub : Shape → NodeId → Option Shape
  | s, [] => some s
  | .node cs, i :: q =>
    match cs[i]? with
    | some c => Shape.sub c q
    | none => none

mutual
/-- The descendants of the root of a tree, in document order. -/
def Shape.descendants : Shape → List NodeId
  | .node cs => Shape.descendantsFrom cs 0
/-- The descendants found in the children from index `i` on. -/
def Shape.descendantsFrom : List Shape → Nat → List NodeId
  | [], _ => []
  | c :: cs, i =>
    ([i] :: (Shape.descendants c).map (fun q => i :: q)) ++ Shape.descendantsFrom cs (i + 1)
end

mutual
/-- The number of levels below the root of a tree. -/
def Shape.height : Shape → Nat
  | .node cs => Shape.heightList cs
/-- The largest number of levels in a list of children, themselves included. -/
def Shape.heightList : List Shape → Nat
  | [] => 0
  | c :: cs => max (Shape.height c + 1) (Shape.heightList cs)
end

/-- A value read from an attribute, as a JavaScript value: `null` when the
attribute is absent. -/
def toJSValue : Option JSString → JSValue
  | none => .null
  | some s => .string s

/-- Attribute list after setting `name` to `value`: the first attribute of
that name gets the value, or a new attribute is added at the end. -/
def setAttr : Attrs → JSString → JSString → Attrs
  | [], name, value => [(name, value)]
  | (k, v) :: rest, name, value =>
    if k = name then (k, value) :: rest else (k, v) :: setAttr rest name value

/-- The method `Element.getAttribute`. -/
def getAttribute (d : DOM) (el : NodeId) (name : JSString) : Option JSString :=
  (d.attrs el).lookup name

/-- The method `Element.setAttribute`. -/
def setAttribute (d : DOM) (el : NodeId) (name value : JSString) : DOM :=
  { d with attrs := Function.update d.attrs el (setAttr (d.attrs el) name value) }

/-- The selector `[src],[href]` on one element. -/
def selected (attrs : Attrs) : Bool :=
  (attrs.lookup "src".toList).isSome || (attrs.lookup "href".toList).isSome

/-- The call `el.querySelectorAll("[src],[href]")`: the descendants of `el`
that have a `src` or an `href` attribute, in document order. -/
def querySelectorAll (d : DOM) (el : NodeId) : List NodeId :=
  match d.shape.sub el with
  | none => []
  | some s => (s.descendants.map (fun q => el ++ q)).filter (fun x => selected (d.attrs x))

/-- The callback of the loop over `["src", "href", "xlink:href"]`. -/
def fixAttribute (ORIGIN : JSString) (d : DOM) (el : NodeId) (attr : JSString) : DOM :=
  let value := getAttribute d el attr
  let fixed := fix ORIGIN (toJSValue value)
  match fixed with
  | some f => if truthy fixed then setAttribute d el attr f else d
  | none => d

/-- The function `fixElement(el)` on an element of the document, for which the
test `!el || !el.getAttribute` is false.  Each level of the recursion uses one
unit of fuel; `none` means the fuel ran out. -/
def fixElement (ORIGIN : JSString) : Nat → DOM → NodeId → Option DOM
  | 0, _, _ => none
  | fuel + 1, d, el =>
    let d₁ := ["src".toList, "href".toList, "xlink:href".toList].foldl
      (fun d attr => fixAttribute ORIGIN d el attr) d
    (querySelectorAll d₁ el).foldlM (fun d q => fixElement ORIGIN fuel d q) d₁

/-- A node listed in `mutation.addedNodes`: its `nodeType` and its place in
the document. -/
structure AddedNode where
  nodeType : Nat
  id : NodeId
  deriving DecidableEq, Repr

/-- The callback of the first `MutationObserver`, given the `addedNodes` of
each mutation record. -/
def onMutations (ORIGIN : JSString) (fuel : Nat) (d : DOM) (mutations : List (List AddedNode)) :
    Option DOM :=
  mutations.foldlM (fun d addedNodes =>
    addedNodes.foldlM (fun d node =>
      if node.nodeType = 1 then fixElement ORIGIN fuel d node.id else some d) d) d

/-- The `DOMContentLoaded` listener that fixes `document.body`. -/
def onDOMContentLoaded (ORIGIN : JSString) (fuel : Nat) (d : DOM) (body : NodeId) : Option DOM :=
  fixElement ORIGIN fuel d body

/-- The effect of the loop over the three attribute names on one attribute
list with one name. -/
def fixAttr (ORIGIN : JSString) (attrs : Attrs) (attr : JSString) : Attrs :=
  match fix ORIGIN (toJSValue (attrs.lookup attr)) with
  | some f => setAttr attrs attr f
  | none => attrs

/-- The effect of the loop over the three attribute names on one attribute list. -/
def fixAttrs (ORIGIN : JSString) (attrs : Attrs) : Attrs :=
  fixAttr ORIGIN (fixAttr ORIGIN (fixAttr ORIGIN attrs "src".toList) "href".toList)
    "xlink:href".toList

/-- The effect of `fixElement` on the attribute list of a descendant. -/
def fixSelected (ORIGIN : JSString) (attrs : Attrs) : Attrs :=
  if selected attrs then fixAttrs ORIGIN attrs else attrs

/-- The document `d'` that a call `fixElement(el)` makes of the document
`d`, where `s` is the tree below `el`: `el` has had the loop over the three
names, every descendant has had it when selected, and nothing else differs. -/
def FixedBelow (ORIGIN : JSString) (d d' : DOM) (el : NodeId) (s : Shape) : Prop :=
  d'.shape = d.shape ∧
  d'.attrs el = fixAttrs ORIGIN (d.attrs el) ∧
  (∀ q ∈ s.descendants, d'.attrs (el ++ q) = fixSelected ORIGIN (d.attrs (el ++ q))) ∧
  (∀ r, r ≠ el → (∀ q ∈ s.descendants, r ≠ el ++ q) → d'.attrs r = d.attrs r)

/-- The state of the document `dᵢ` in the middle of the loop over the
selected descendants of `el`: the elements that satisfy `P` have been visited. -/
def FixInvariant (ORIGIN : JSString) (d dᵢ : DOM) (el : NodeId) (s : Shape)
    (P : NodeId → Prop) : Prop :=
  dᵢ.shape = d.shape ∧
  dᵢ.attrs el = fixAttrs ORIGIN (d.attrs el) ∧
  (∀ q ∈ s.descendants, dᵢ.attrs (el ++ q) = d.attrs (el ++ q) ∨
    dᵢ.attrs (el ++ q) = fixSelected ORIGIN (d.attrs (el ++ q))) ∧
  (∀ x, P x → dᵢ.attrs x = fixSelected ORIGIN (d.attrs x)) ∧
  (∀ r, r ≠ el → (∀ q ∈ s.descendants, r ≠ el ++ q) → dᵢ.attrs r = d.attrs r)

/-- A small tree: a root with two children, the first of which has two
children of its own. -/
def exampleShape : Shape := .node [.node [.node [], .node []], .node []]

/-- A document on `exampleShape`: a link at the root, an image and an SVG
reference below the first child, and a link with a full URL as second child. -/
def exampleDocument : DOM :=
  ⟨exampleShape, fun el =>
    match el with
    | [] => [("href".toList, "/commerce/a".toList)]
    | [0] => [("class".toList, "x".toList)]
    | [0, 0] => [("src".toList, "/hlx_statics/i.png".toList), ("alt".toList, "i".toList)]
    | [0, 1] => [("xlink:href".toList, "/commerce/s".toList)]
    | [1] => [("href".toList, "https://h.io/commerce/z".toList)]
    | _ => []⟩

/-! ## Theorems -/

theorem startsWith_iff (s p : JSString) : startsWith s p = true ↔ p <+: s := by
  unfold startsWith
  exact List.isPrefixOf_iff_prefix

theorem includes_iff (s p : JSString) : includes s p = true ↔ p <:+: s := by
  induction s with
  | nil =>
    simp only [includes, startsWith_iff]
    constructor
    · intro h; exact h.isInfix
    · intro h
      have : p = [] := List.eq_nil_of_infix_nil h
      subst this; exact List.prefix_refl _
  | cons c t ih =>
    simp only [includes, Bool.or_eq_true, startsWith_iff, ih]
    constructor
    · rintro (h | h)
      · exact h.isInfix
      · exact h.trans (List.suffix_cons c t).isInfix
    · intro h
      rcases List.infix_cons_iff.mp h with h | h
      · exact Or.inl h
      · exact Or.inr h

theorem startsWith_append_self (o p : JSString) : startsWith (o ++ p) o = true :=
  (startsWith_iff _ _).mpr (List.prefix_append o p)

theorem substring_append_length (o p : JSString) : substring (o ++ p) o.length = p := by
  simp [substring]

theorem includes_false_of_append (o p q : JSString) (h : includes (o ++ p) q = false) :
    startsWith p q = false := by
  cases hq : startsWith p q with
  | false => rfl
  | true =>
    have h1 : q <+: p := (startsWith_iff _ _).mp hq
    have h2 : q <:+: o ++ p := h1.isInfix.trans (List.suffix_append o p).isInfix
    rw [(includes_iff _ _).mpr h2] at h
    exact absurd h (by simp)

theorem recognized_ne_nil (p : JSString) (h : recognized p = true) : p ≠ [] := by
  rintro rfl
  revert h
  decide

/-- What `fixFull` returns, and when. -/
theorem fixFull_eq_some (O s r : JSString) (h : fixFull O s = some r) :
    ∃ p, s = O ++ p ∧ includes s BASE = false ∧ recognized p = true ∧ r = O ++ BASE ++ p := by
  unfold fixFull at h
  split at h
  · rename_i hc
    simp only [Bool.and_eq_true, Bool.not_eq_true', startsWith_iff] at hc
    obtain ⟨⟨p, rfl⟩, hinc⟩ := hc
    rw [substring_append_length] at h
    by_cases hr : recognized p = true
    · simp only [hr, if_true, Option.some.injEq] at h
      exact ⟨p, rfl, hinc, hr, h.symm⟩
    · simp [hr] at h
  · exact absurd h (by simp)

theorem fixFull_append (O p : JSString) (h1 : recognized p = true)
    (h2 : includes (O ++ p) BASE = false) :
    fixFull O (O ++ p) = some (O ++ BASE ++ p) := by
  unfold fixFull
  simp [startsWith_append_self, h2, substring_append_length, h1]

theorem fixRelative_eq_some (s r : JSString) (h : fixRelative s = some r) :
    startsWith s "/".toList = true ∧ startsWith s BASE = false ∧ recognized s = true ∧
      r = BASE ++ s := by
  unfold fixRelative at h
  split at h
  · rename_i hc
    simp only [Bool.and_eq_true, Bool.not_eq_true'] at hc
    simp only [Option.some.injEq] at h
    exact ⟨hc.1.1, hc.1.2, hc.2, h.symm⟩
  · exact absurd h (by simp)

theorem fix_string (O s : JSString) (hs : s ≠ []) :
    fix O (.string s) = (fixFull O s).orElse (fun _ => fixRelative s) := by
  unfold fix
  cases s with
  | nil => exact absurd rfl hs
  | cons c t =>
    simp only [List.isEmpty_cons, Bool.false_eq_true, if_false]
    cases fixFull O (c :: t) <;> rfl

/-- C1: a root-relative URL that starts with a recognized prefix and not with
the base path is returned with the base path put in front of it, whenever
`ORIGIN` does not itself start with a slash. -/
theorem fix_root_relative (ORIGIN url : JSString)
    (hO : startsWith ORIGIN "/".toList = false)
    (h1 : startsWith url "/".toList = true)
    (h2 : recognized url = true)
    (h3 : startsWith url BASE = false) :
    fix ORIGIN (.string url) = some (BASE ++ url) := by
  have hne : url ≠ [] := recognized_ne_nil url h2
  rw [fix_string ORIGIN url hne]
  cases hf : fixFull ORIGIN url with
  | none =>
    simp only [Option.orElse]
    unfold fixRelative
    rw [h1, h3, h2]
    rfl
  | some r =>
    obtain ⟨p, hp, -, -, hr⟩ := fixFull_eq_some ORIGIN url r hf
    cases ORIGIN with
    | nil =>
      simp only [List.nil_append] at hp hr
      subst hp
      simp [Option.orElse, hr]
    | cons c t =>
      exfalso
      subst hp
      have hc : c = '/' := by
        have := (startsWith_iff _ _).mp h1
        obtain ⟨q, hq⟩ := this
        simp at hq
        exact hq.1.symm
      subst hc
      revert hO
      simp [startsWith]

/-- Witness of C1 at `"/commerce/testing/config"`. -/
theorem fix_root_relative_witness :
    fix "https://adobedocs.github.io".toList (.string "/commerce/testing/config".toList)
      = some "/commerce-testing/commerce/testing/config".toList :=
  fix_root_relative "https://adobedocs.github.io".toList "/commerce/testing/config".toList
    (by decide) (by decide) (by decide) (by decide)

/-- C2 at a failing input: the path `/commerce/commerce-testing/x` starts
with a recognized prefix and not with the base path; the root-relative branch
rewrites it, and the full URL `ORIGIN + path` is returned as `null`, because
the first branch tests `includes` where the second tests `startsWith`. -/
theorem fix_full_url_failing_input :
    recognized "/commerce/commerce-testing/x".toList = true ∧
    startsWith "/commerce/commerce-testing/x".toList BASE = false ∧
    fix "https://adobedocs.github.io".toList (.string "/commerce/commerce-testing/x".toList)
      = some (BASE ++ "/commerce/commerce-testing/x".toList) ∧
    fix "https://adobedocs.github.io".toList
      (.string ("https://adobedocs.github.io".toList ++ "/commerce/commerce-testing/x".toList))
      = none := by
  decide

/-- The full-URL branch where its guard lets it run: a full URL `ORIGIN + p`
whose path starts with a recognized prefix, and in which the base path occurs
nowhere, is returned as `ORIGIN + BASE + p`. -/
theorem fix_full_url (ORIGIN p : JSString)
    (h1 : recognized p = true)
    (h2 : includes (ORIGIN ++ p) BASE = false) :
    fix ORIGIN (.string (ORIGIN ++ p)) = some (ORIGIN ++ BASE ++ p) := by
  have hne : ORIGIN ++ p ≠ [] := by
    intro h
    exact recognized_ne_nil p h1 (List.append_eq_nil.mp h).2
  rw [fix_string ORIGIN _ hne, fixFull_append ORIGIN p h1 h2]
  rfl

/-- The full-URL branch at `https://adobedocs.github.io/commerce/testing/config`. -/
theorem fix_full_url_witness :
    fix "https://adobedocs.github.io".toList
      (.string ("https://adobedocs.github.io".toList ++ "/commerce/testing/config".toList))
      = some ("https://adobedocs.github.io".toList ++ BASE ++ "/commerce/testing/config".toList) :=
  fix_full_url "https://adobedocs.github.io".toList "/commerce/testing/config".toList
    (by decide) (by decide)

/-- C3: `fix` returns `null` for every value that is not a string, for the
empty string, and for every string that is neither `ORIGIN + p` nor `p` with
`p` starting with a recognized prefix and not with the base path; whenever
the result is not `null` the argument has one of these two shapes. -/
theorem fix_null_otherwise (ORIGIN : JSString) (v : JSValue) :
    ((∀ s, v ≠ .string s) → fix ORIGIN v = none) ∧
    (v = .string [] → fix ORIGIN v = none) ∧
    (∀ s, v = .string s →
      (¬ ∃ p, (s = ORIGIN ++ p ∨ s = p) ∧ recognized p = true ∧ startsWith p BASE = false) →
      fix ORIGIN v = none) ∧
    (∀ r, fix ORIGIN v = some r →
      ∃ s p, v = .string s ∧ (s = ORIGIN ++ p ∨ s = p) ∧
        recognized p = true ∧ startsWith p BASE = false) := by
  have key : ∀ s r, fix ORIGIN (.string s) = some r →
      ∃ p, (s = ORIGIN ++ p ∨ s = p) ∧ recognized p = true ∧ startsWith p BASE = false := by
    intro s r h
    have hne : s ≠ [] := by
      rintro rfl
      simp [fix] at h
    rw [fix_string ORIGIN s hne] at h
    cases hf : fixFull ORIGIN s with
    | some r1 =>
      obtain ⟨p, hp, hinc, hrec, -⟩ := fixFull_eq_some ORIGIN s r1 hf
      subst hp
      exact ⟨p, Or.inl rfl, hrec, includes_false_of_append ORIGIN p BASE hinc⟩
    | none =>
      rw [hf] at h
      simp only [Option.orElse] at h
      obtain ⟨-, hb, hrec, -⟩ := fixRelative_eq_some s r h
      exact ⟨s, Or.inr rfl, hrec, hb⟩
  refine ⟨?_, ?_, ?_, ?_⟩
  · intro h
    cases v with
    | string s => exact absurd rfl (h s)
    | _ => rfl
  · rintro rfl
    rfl
  · rintro s rfl hno
    cases h : fix ORIGIN (.string s) with
    | none => rfl
    | some r => exact absurd (key s r h) hno
  · intro r h
    cases v with
    | string s =>
      obtain ⟨p, hp⟩ := key s r h
      exact ⟨s, p, rfl, hp⟩
    | _ => simp [fix] at h

/-- Witness of C3: a URL outside the recognized prefixes, a number, and a
rewritten URL with its decomposition. -/
theorem fix_null_otherwise_witness :
    fix "https://adobedocs.github.io".toList (.number 7) = none ∧
    fix "https://adobedocs.github.io".toList (.string "/other/page".toList) = none ∧
    ∃ s p, JSValue.string "/commerce/x".toList = .string s ∧
      (s = "https://adobedocs.github.io".toList ++ p ∨ s = p) ∧
      recognized p = true ∧ startsWith p BASE = false :=
  have h := fix_null_otherwise "https://adobedocs.github.io".toList
  ⟨(h (.number 7)).1 (by intro s; exact JSValue.noConfusion),
   (h (.string "/other/page".toList)).2.2.1 _ rfl (by
      rintro ⟨p, hp, hr, -⟩
      rcases hp with hp | hp
      · have : startsWith "/other/page".toList "https://adobedocs.github.io".toList = true := by
          rw [hp]; exact startsWith_append_self _ _
        revert this; decide
      · subst hp; revert hr; decide),
   (h (.string "/commerce/x".toList)).2.2.2 "/commerce-testing/commerce/x".toList (by decide)⟩

/-- A result of `fix` is never the empty string, so `if (fixed)` tests
exactly that the result is not `null`. -/
theorem truthy_fix (O : JSString) (v : JSValue) : truthy (fix O v) = (fix O v).isSome := by
  cases h : fix O v with
  | none => rfl
  | some r =>
    have hne : r ≠ [] := by
      cases v with
      | string s =>
        have hs : s ≠ [] := by
          rintro rfl
          simp [fix] at h
        rw [fix_string O s hs] at h
        cases hf : fixFull O s with
        | some r1 =>
          rw [hf] at h
          simp only [Option.orElse, Option.some.injEq] at h
          obtain ⟨p, -, -, -, hr⟩ := fixFull_eq_some O s r1 hf
          subst h
          rw [hr]
          simp [BASE]
        | none =>
          rw [hf] at h
          simp only [Option.orElse] at h
          obtain ⟨-, -, -, hr⟩ := fixRelative_eq_some s r h
          rw [hr]
          simp [BASE]
      | _ => simp [fix] at h
    cases r with
    | nil => exact absurd rfl hne
    | cons c t => rfl

/-- C4: the patched `fetch` hands `originalFetch` the rewritten string (or a
`Request` built on the rewritten url) when `fix` gives one and the original
input otherwise, always with the same receiver and options; the patched `open`
hands `originalXHROpen` the same method, the url replaced by `fix(url)` when
that is not `null`, and the arguments after the second unchanged and in order. -/
theorem network_calls_rewritten (ORIGIN : JSString) (newRequest : JSString → JSValue → JSValue)
    (thisArg input options : JSValue) (arguments : List JSValue) :
    (∀ s f, input = .string s → fix ORIGIN input = some f →
      patchedFetch ORIGIN newRequest thisArg input options = ⟨thisArg, [.string f, options]⟩) ∧
    (∀ url rest f, input = .request url rest → fix ORIGIN (.string url) = some f →
      patchedFetch ORIGIN newRequest thisArg input options
        = ⟨thisArg, [newRequest f input, options]⟩) ∧
    (((∀ s, input = .string s → fix ORIGIN input = none) ∧
      (∀ url rest, input = .request url rest → fix ORIGIN (.string url) = none)) →
      patchedFetch ORIGIN newRequest thisArg input options = ⟨thisArg, [input, options]⟩) ∧
    (patchedOpen ORIGIN thisArg arguments).thisArg = thisArg ∧
    (patchedOpen ORIGIN thisArg arguments).args.length = max 2 arguments.length ∧
    (patchedOpen ORIGIN thisArg arguments).args.getD 0 .undefined
      = arguments.getD 0 .undefined ∧
    (patchedOpen ORIGIN thisArg arguments).args.getD 1 .undefined
      = (match fix ORIGIN (arguments.getD 1 .undefined) with
         | some f => .string f
         | none => arguments.getD 1 .undefined) ∧
    (patchedOpen ORIGIN thisArg arguments).args.drop 2 = arguments.drop 2 := by
  refine ⟨?_, ?_, ?_, rfl, ?_, rfl, ?_, rfl⟩
  · rintro s f rfl hf
    have ht := truthy_fix ORIGIN (.string s)
    simp only [patchedFetch, hf] at ht ⊢
    simp [ht]
  · rintro url rest f rfl hf
    have ht := truthy_fix ORIGIN (.string url)
    simp only [patchedFetch, hf] at ht ⊢
    simp [ht]
  · rintro ⟨h1, h2⟩
    cases input with
    | string s => simp only [patchedFetch, h1 s rfl]
    | request url rest => simp only [patchedFetch, h2 url rest rfl]
    | _ => rfl
  · simp only [patchedOpen, List.length_append, List.length_cons, List.length_nil,
      List.length_drop]
    omega
  · have ht := truthy_fix ORIGIN (arguments.getD 1 .undefined)
    simp only [patchedOpen]
    cases hf : fix ORIGIN (arguments.getD 1 .undefined) with
    | none => rfl
    | some f =>
      rw [hf] at ht
      simp [ht]

/-- Witness of C4: a rewritable string passed to `fetch`, and an `open` call
with three trailing arguments. -/
theorem network_calls_rewritten_witness :
    patchedFetch "https://adobedocs.github.io".toList (fun u _ => .request u 0) .undefined
        (.string "/commerce/x".toList) (.object 1)
      = ⟨.undefined, [.string "/commerce-testing/commerce/x".toList, .object 1]⟩ ∧
    (patchedOpen "https://adobedocs.github.io".toList (.object 9)
        [.string "GET".toList, .string "/commerce/x".toList, .boolean true, .null, .number 3]).args.drop 2
      = [.boolean true, .null, .number 3] :=
  have h := network_calls_rewritten "https://adobedocs.github.io".toList (fun u _ => .request u 0)
    .undefined (.string "/commerce/x".toList) (.object 1)
  ⟨(h []).1 "/commerce/x".toList "/commerce-testing/commerce/x".toList rfl (by decide),
   (network_calls_rewritten "https://adobedocs.github.io".toList (fun u _ => .request u 0)
      (.object 9) .undefined .undefined
      [.string "GET".toList, .string "/commerce/x".toList, .boolean true, .null,
        .number 3]).2.2.2.2.2.2.2⟩

/-! ### The matcher against the declarative reading -/

theorem Regex.runStar_sound (p : Char → Bool) (s : JSString)
    (k : JSString → Option JSString) (out : JSString) (h : Regex.runStar p s k = some out) :
    ∃ w rest, s = w ++ rest ∧ (∀ c ∈ w, p c = true) ∧ k rest = some out := by
  induction s generalizing out with
  | nil => exact ⟨[], [], rfl, by simp, h⟩
  | cons c t ih =>
    unfold Regex.runStar at h
    by_cases hp : p c = true
    · rw [if_pos hp] at h
      cases hr : Regex.runStar p t k with
      | some o =>
        rw [hr] at h
        obtain ⟨w, rest, hs, hw, hk⟩ := ih o hr
        refine ⟨c :: w, rest, by rw [hs]; rfl, ?_, ?_⟩
        · intro x hx
          rcases List.mem_cons.mp hx with rfl | hx
          · exact hp
          · exact hw x hx
        · rw [hk]; exact h
      | none =>
        rw [hr] at h
        exact ⟨[], c :: t, rfl, by simp, h⟩
    · rw [if_neg hp] at h
      exact ⟨[], c :: t, rfl, by simp, h⟩

/-- Soundness of the matcher: a successful run splits the subject into a word
matched by the expression and a rest accepted by the continuation. -/
theorem Regex.run_sound (r : Regex) : ∀ (s : JSString) (k : JSString → Option JSString)
    (out : JSString), Regex.run r s k = some out →
    ∃ w rest, s = w ++ rest ∧ Regex.Matches r w rest ∧ k rest = some out := by
  induction r with
  | eps =>
    intro s k out h
    exact ⟨[], s, rfl, rfl, h⟩
  | set p =>
    intro s k out h
    cases s with
    | nil => simp [Regex.run] at h
    | cons c t =>
      simp only [Regex.run] at h
      by_cases hp : p c = true
      · rw [if_pos hp] at h
        exact ⟨[c], t, rfl, ⟨c, rfl, hp⟩, h⟩
      · rw [if_neg hp] at h
        exact absurd h (by simp)
  | seq r₁ r₂ ih₁ ih₂ =>
    intro s k out h
    simp only [Regex.run] at h
    obtain ⟨w₁, rest₁, hs₁, hm₁, hk₁⟩ := ih₁ s _ out h
    obtain ⟨w₂, rest, hs₂, hm₂, hk⟩ := ih₂ rest₁ k out hk₁
    subst hs₂
    exact ⟨w₁ ++ w₂, rest, by rw [hs₁, List.append_assoc], ⟨w₁, w₂, rfl, hm₁, hm₂⟩, hk⟩
  | alt r₁ r₂ ih₁ ih₂ =>
    intro s k out h
    simp only [Regex.run] at h
    cases h₁ : Regex.run r₁ s k with
    | some o =>
      rw [h₁] at h
      obtain ⟨w, rest, hs, hm, hk⟩ := ih₁ s k o h₁
      exact ⟨w, rest, hs, Or.inl hm, by rw [hk]; exact h⟩
    | none =>
      rw [h₁] at h
      obtain ⟨w, rest, hs, hm, hk⟩ := ih₂ s k out h
      exact ⟨w, rest, hs, Or.inr hm, hk⟩
  | opt r ih =>
    intro s k out h
    simp only [Regex.run] at h
    cases h₁ : Regex.run r s k with
    | some o =>
      rw [h₁] at h
      obtain ⟨w, rest, hs, hm, hk⟩ := ih s k o h₁
      exact ⟨w, rest, hs, Or.inr hm, by rw [hk]; exact h⟩
    | none =>
      rw [h₁] at h
      exact ⟨[], s, rfl, Or.inl rfl, h⟩
  | star p =>
    intro s k out h
    exact Regex.runStar_sound p s k out h
  | eoi =>
    intro s k out h
    cases s with
    | nil => exact ⟨[], [], rfl, ⟨rfl, rfl⟩, h⟩
    | cons c t => simp [Regex.run] at h

theorem Regex.runStar_complete (p : Char → Bool) (w rest : JSString)
    (k : JSString → Option JSString) (hw : ∀ c ∈ w, p c = true) (hk : (k rest).isSome = true) :
    (Regex.runStar p (w ++ rest) k).isSome = true := by
  induction w with
  | nil =>
    cases rest with
    | nil => exact hk
    | cons c t =>
      simp only [List.nil_append, Regex.runStar]
      by_cases hp : p c = true
      · rw [if_pos hp]
        cases Regex.runStar p t k with
        | some o => rfl
        | none => exact hk
      · rw [if_neg hp]; exact hk
  | cons c t ih =>
    have hc : p c = true := hw c (List.mem_cons_self c t)
    have ht := ih (fun x hx => hw x (List.mem_cons_of_mem c hx))
    simp only [List.cons_append, Regex.runStar, if_pos hc]
    cases hr : Regex.runStar p (t ++ rest) k with
    | some o => rfl
    | none => rw [hr] at ht; exact absurd ht (by simp)

/-- Completeness of the matcher: when the expression can match a word in front
of a rest that the continuation accepts, the run succeeds. -/
theorem Regex.run_complete (r : Regex) : ∀ (w rest : JSString)
    (k : JSString → Option JSString), Regex.Matches r w rest → (k rest).isSome = true →
    (Regex.run r (w ++ rest) k).isSome = true := by
  induction r with
  | eps =>
    intro w rest k hm hk
    simp only [Regex.Matches] at hm
    subst hm
    exact hk
  | set p =>
    intro w rest k hm hk
    obtain ⟨c, rfl, hp⟩ := hm
    simp only [List.singleton_append, Regex.run, if_pos hp]
    exact hk
  | seq r₁ r₂ ih₁ ih₂ =>
    intro w rest k hm hk
    obtain ⟨w₁, w₂, rfl, hm₁, hm₂⟩ := hm
    simp only [Regex.run, List.append_assoc]
    exact ih₁ w₁ (w₂ ++ rest) _ hm₁ (ih₂ w₂ rest k hm₂ hk)
  | alt r₁ r₂ ih₁ ih₂ =>
    intro w rest k hm hk
    simp only [Regex.run]
    cases h₁ : Regex.run r₁ (w ++ rest) k with
    | some o => rfl
    | none =>
      rcases hm with hm | hm
      · have := ih₁ w rest k hm hk
        rw [h₁] at this
        exact absurd this (by simp)
      · exact ih₂ w rest k hm hk
  | opt r ih =>
    intro w rest k hm hk
    simp only [Regex.run]
    cases h₁ : Regex.run r (w ++ rest) k with
    | some o => rfl
    | none =>
      rcases hm with hm | hm
      · subst hm
        exact hk
      · have := ih w rest k hm hk
        rw [h₁] at this
        exact absurd this (by simp)
  | star p =>
    intro w rest k hm hk
    exact Regex.runStar_complete p w rest k hm hk
  | eoi =>
    intro w rest k hm hk
    obtain ⟨rfl, rfl⟩ := hm
    exact hk

theorem Regex.matches_str (cs w rest : JSString) (h : Regex.Matches (Regex.str cs) w rest) :
    w = cs := by
  induction cs generalizing w with
  | nil => exact h
  | cons c t ih =>
    obtain ⟨w₁, w₂, rfl, ⟨x, rfl, hx⟩, h₂⟩ := h
    have : x = c := by simpa using hx
    subst this
    rw [ih w₂ h₂]
    rfl

/-- When no match starts inside `q`, the search moves on to what follows `q`. -/
theorem Regex.searchFrom_skip (r : Regex) (q t : JSString) (i : Nat)
    (h : ∀ q₁ q₂, q = q₁ ++ q₂ → q₂ ≠ [] → Regex.run r (q₂ ++ t) some = none) :
    Regex.searchFrom r (q ++ t) i = Regex.searchFrom r t (i + q.length) := by
  induction q generalizing i with
  | nil => rfl
  | cons c q ih =>
    have h0 := h [] (c :: q) rfl (by simp)
    simp only [List.cons_append] at h0
    show Regex.searchFrom r (c :: (q ++ t)) i = _
    rw [Regex.searchFrom, h0]
    simp only []
    rw [ih (i + 1) (fun q₁ q₂ hq hne => h (c :: q₁) q₂ (by rw [hq]; rfl) hne)]
    simp only [List.length_cons]
    congr 1
    omega

theorem endsWith_iff (s p : JSString) : endsWith s p = true ↔ p <:+ s := by
  unfold endsWith
  exact List.isSuffixOf_iff_suffix

/-- C6: when the pathname ends with `/index.html`, `replaceState` is called
once, with the pathname deprived of its final `index.html` (ten code units
shorter and ending with a slash) followed by the unchanged search and hash;
otherwise `replaceState` is not called. -/
theorem normalizeUrl_spec (location : Location) :
    (endsWith location.pathname "/index.html".toList = true →
      ∃ p, normalizeUrl location = [⟨.null, [], p ++ location.search ++ location.hash⟩] ∧
        p ++ "index.html".toList = location.pathname ∧
        endsWith p "/".toList = true ∧
        p.length + 10 = location.pathname.length) ∧
    (endsWith location.pathname "/index.html".toList = false → normalizeUrl location = []) := by
  constructor
  · intro h
    obtain ⟨q, hq⟩ := (endsWith_iff _ _).mp h
    refine ⟨q ++ "/".toList, ?_, ?_, ?_, ?_⟩
    · have hskip : Regex.searchFrom indexHtmlPattern (q ++ "/index.html".toList) 0
          = some (q.length, "/index.html".toList) := by
        rw [Regex.searchFrom_skip]
        · simp only [Nat.zero_add]
          rfl
        · intro q₁ q₂ _ hne
          cases hrun : Regex.run indexHtmlPattern (q₂ ++ "/index.html".toList) some with
          | none => rfl
          | some out =>
            exfalso
            obtain ⟨w, rest, hs, hm, -⟩ := Regex.run_sound _ _ _ _ hrun
            obtain ⟨w₁, w₂, rfl, hm₁, hm₂⟩ := hm
            have h₁ := Regex.matches_str _ _ _ hm₁
            obtain ⟨rfl, rfl⟩ := hm₂
            subst h₁
            have hlen := congrArg List.length hs
            simp only [List.length_append, List.append_nil] at hlen
            have : q₂.length = 0 := by omega
            exact hne (List.length_eq_zero.mp this)
      unfold normalizeUrl
      rw [if_pos h]
      unfold Regex.replace
      rw [← hq, hskip]
      simp
    · rw [← hq]
      simp
    · exact (endsWith_iff _ _).mpr ⟨q, rfl⟩
    · rw [← hq]
      simp
  · intro h
    unfold normalizeUrl
    rw [h]
    rfl

/-- Witness of C6 at the pathname `/commerce-testing/guide/index.html`. -/
theorem normalizeUrl_spec_witness :
    ∃ p, normalizeUrl ⟨"/commerce-testing/guide/index.html".toList, "?a=1".toList, "#top".toList⟩
        = [⟨.null, [], p ++ "?a=1".toList ++ "#top".toList⟩] ∧
      p ++ "index.html".toList = "/commerce-testing/guide/index.html".toList ∧
      endsWith p "/".toList = true ∧
      p.length + 10 = "/commerce-testing/guide/index.html".toList.length :=
  (normalizeUrl_spec
    ⟨"/commerce-testing/guide/index.html".toList, "?a=1".toList, "#top".toList⟩).1 (by decide)

/-! ### Searching and `exec` -/

/-- A match reported by the search is a word matched by the expression at the
reported index of the subject. -/
theorem Regex.searchFrom_some (r : Regex) (s : JSString) (i j : Nat) (m : JSString)
    (h : Regex.searchFrom r s i = some (j, m)) :
    ∃ q rest, s = q ++ (m ++ rest) ∧ j = i + q.length ∧ Regex.Matches r m rest := by
  induction s generalizing i with
  | nil =>
    rw [Regex.searchFrom] at h
    cases hr : Regex.run r [] some with
    | none => rw [hr] at h; exact absurd h (by simp)
    | some out =>
      rw [hr] at h
      simp only [Option.some.injEq, Prod.mk.injEq] at h
      obtain ⟨w, rest, hs, hm, -⟩ := Regex.run_sound r [] some out hr
      have hw : w = [] := (List.append_eq_nil.mp hs.symm).1
      have hrest : rest = [] := (List.append_eq_nil.mp hs.symm).2
      subst hw hrest
      refine ⟨[], [], ?_, ?_, ?_⟩
      · rw [← h.2]; rfl
      · rw [← h.1]; rfl
      · rw [← h.2]; exact hm
  | cons c t ih =>
    rw [Regex.searchFrom] at h
    cases hr : Regex.run r (c :: t) some with
    | none =>
      rw [hr] at h
      obtain ⟨q, rest, hs, hj, hm⟩ := ih (i + 1) h
      refine ⟨c :: q, rest, by rw [hs]; rfl, ?_, hm⟩
      rw [hj, List.length_cons]
      omega
    | some out =>
      rw [hr] at h
      simp only [Option.some.injEq, Prod.mk.injEq] at h
      obtain ⟨w, rest, hs, hm, hk⟩ := Regex.run_sound r (c :: t) some out hr
      simp only [Option.some.injEq] at hk
      subst hk
      have hmw : m = w := by
        rw [← h.2, hs]
        simp
      subst hmw
      exact ⟨[], rest, hs, by rw [← h.1]; rfl, hm⟩

/-- The search succeeds as soon as the expression matches somewhere. -/
theorem Regex.searchFrom_isSome (r : Regex) (q t : JSString) (i : Nat)
    (h : (Regex.run r t some).isSome = true) :
    (Regex.searchFrom r (q ++ t) i).isSome = true := by
  induction q generalizing i with
  | nil =>
    cases t with
    | nil =>
      simp only [List.nil_append, Regex.searchFrom]
      cases hr : Regex.run r [] some with
      | none => rw [hr] at h; exact absurd h (by simp)
      | some out => rfl
    | cons c t =>
      simp only [List.nil_append, Regex.searchFrom]
      cases hr : Regex.run r (c :: t) some with
      | none => rw [hr] at h; exact absurd h (by simp)
      | some out => rfl
  | cons c q ih =>
    show (Regex.searchFrom r (c :: (q ++ t)) i).isSome = true
    rw [Regex.searchFrom]
    cases hr : Regex.run r (c :: (q ++ t)) some with
    | none => exact ih (i + 1)
    | some out => rfl

/-- A match returned by `exec`: where it lies in the subject, and the new
`lastIndex`. -/
theorem Regex.exec_some (r : Regex) (s : JSString) (lastIndex j : Nat) (m : JSString)
    (next : Nat) (h : Regex.exec r s lastIndex = (some (j, m), next)) :
    ∃ q rest, s = q ++ (m ++ rest) ∧ j = q.length ∧ lastIndex ≤ j ∧ next = j + m.length ∧
      Regex.Matches r m rest := by
  unfold Regex.exec at h
  by_cases hl : lastIndex > s.length
  · rw [if_pos hl] at h
    simp at h
  · rw [if_neg hl] at h
    cases hs : Regex.searchFrom r (s.drop lastIndex) lastIndex with
    | none => rw [hs] at h; simp at h
    | some res =>
      obtain ⟨j', m'⟩ := res
      rw [hs] at h
      simp only [Prod.mk.injEq, Option.some.injEq] at h
      obtain ⟨⟨rfl, rfl⟩, hnext⟩ := h
      obtain ⟨q, rest, hd, hj, hm⟩ := Regex.searchFrom_some r _ _ _ _ hs
      refine ⟨s.take lastIndex ++ q, rest, ?_, ?_, ?_, hnext.symm, hm⟩
      · rw [List.append_assoc, ← hd, List.take_append_drop]
      · rw [hj, List.length_append, List.length_take]
        omega
      · omega

/-- The shape of every word matched by `linkAttributePattern`. -/
theorem matches_linkAttributePattern (m rest : JSString)
    (h : Regex.Matches linkAttributePattern m rest) :
    ∃ g ws a, m = ']' :: (g ++ (ws ++ ('{' :: ':' :: (a ++ ['}'])))) ∧ a ≠ [] := by
  obtain ⟨_, w₂, rfl, ⟨c₁, rfl, h₁⟩, h⟩ := h
  obtain ⟨g, w₃, rfl, -, h⟩ := h
  obtain ⟨ws, w₄, rfl, -, h⟩ := h
  obtain ⟨_, w₅, rfl, ⟨c₂, rfl, h₂⟩, h⟩ := h
  obtain ⟨_, w₆, rfl, ⟨c₃, rfl, h₃⟩, h⟩ := h
  obtain ⟨a, _, rfl, ha, ⟨c₄, rfl, h₄⟩⟩ := h
  obtain ⟨_, a', rfl, ⟨c₅, rfl, -⟩, -⟩ := ha
  have e₁ : c₁ = ']' := by simpa using h₁
  have e₂ : c₂ = '{' := by simpa using h₂
  have e₃ : c₃ = ':' := by simpa using h₃
  have e₄ : c₄ = '}' := by simpa using h₄
  subst e₁ e₂ e₃ e₄
  exact ⟨g, ws, [c₅] ++ a', rfl, by simp⟩

/-- What the shape gives: the matched text starts with `]`, contains `{:`
and ends with `}`. -/
theorem linkAttribute_shape (g ws a : JSString) :
    startsWith (']' :: (g ++ (ws ++ ('{' :: ':' :: (a ++ ['}']))))) "]".toList = true ∧
    includes (']' :: (g ++ (ws ++ ('{' :: ':' :: (a ++ ['}']))))) "\x7b:".toList = true ∧
    endsWith (']' :: (g ++ (ws ++ ('{' :: ':' :: (a ++ ['}']))))) "\x7d".toList = true := by
  refine ⟨?_, ?_, ?_⟩
  · exact (startsWith_iff _ _).mpr ⟨_, rfl⟩
  · refine (includes_iff _ _).mpr ⟨']' :: (g ++ ws), a ++ ['}'], ?_⟩
    show (']' :: (g ++ ws)) ++ ['{', ':'] ++ (a ++ ['}']) = _
    simp
  · refine (endsWith_iff _ _).mpr ⟨']' :: (g ++ (ws ++ ('{' :: ':' :: a))), ?_⟩
    show (']' :: (g ++ (ws ++ ('{' :: ':' :: a)))) ++ ['}'] = _
    simp

/-- The loop of `forToken` ends: every match is at least one code unit long,
so `lastIndex` grows at each iteration. -/
theorem execLoop_isSome (line : JSString) (lineNumber : Nat) :
    ∀ fuel lastIndex, 0 < fuel → line.length < fuel + lastIndex →
      (execLoop line lineNumber fuel lastIndex).isSome = true := by
  intro fuel
  induction fuel with
  | zero =>
    intro lastIndex h0
    exact absurd h0 (by omega)
  | succ n ih =>
    intro lastIndex _ h
    rw [execLoop]
    cases he : Regex.exec linkAttributePattern line lastIndex with
    | mk res next =>
      cases res with
      | none => rfl
      | some jm =>
        obtain ⟨j, m⟩ := jm
        obtain ⟨q, rest, hs, hj, hle, hnext, hm⟩ := Regex.exec_some _ _ _ _ _ _ he
        obtain ⟨g, ws, a, rfl, -⟩ := matches_linkAttributePattern m rest hm
        have hline := congrArg List.length hs
        simp only [List.length_append, List.length_cons] at hline
        have hlen : line.length < n + next ∧ 0 < n := by
          rw [hnext]
          simp only [List.length_cons, List.length_append]
          omega
        have := ih next hlen.2 hlen.1
        simp only []
        cases hl : execLoop line lineNumber n next with
        | none => rw [hl] at this; exact absurd this (by simp)
        | some errs => rfl

/-- Words of the link-attribute forms are matched by `linkAttributePattern`. -/
theorem linkAttribute_matches (g ws a rest : JSString) (c₀ : Char)
    (hg : g = [] ∨ ∃ url, g = '(' :: (url ++ [')']) ∧ url ≠ [] ∧ ∀ c ∈ url, c ≠ ')')
    (hws : ∀ c ∈ ws, isSpace c = true) (h₀ : c₀ ≠ '}') (ha : ∀ c ∈ a, c ≠ '}') :
    Regex.Matches linkAttributePattern
      (']' :: (g ++ (ws ++ ('{' :: ':' :: (c₀ :: a ++ ['}']))))) rest := by
  simp only [linkAttributePattern, Regex.Matches, Regex.lit, Regex.plus]
  refine ⟨[']'], _, rfl, ⟨']', rfl, rfl⟩, g, _, rfl, ?_, ws, _, rfl, hws, ['{'], _, rfl,
    ⟨'{', rfl, rfl⟩, [':'], _, rfl, ⟨':', rfl, rfl⟩, c₀ :: a, ['}'], rfl,
    ⟨[c₀], a, rfl, ⟨c₀, rfl, by simpa using h₀⟩, by simpa using ha⟩, '}', rfl, rfl⟩
  rcases hg with rfl | ⟨url, rfl, hne, hurl⟩
  · exact Or.inl rfl
  · cases url with
    | nil => exact absurd rfl hne
    | cons u us =>
      refine Or.inr (Or.inl ⟨['('], _, rfl, ⟨'(', rfl, rfl⟩, u :: us, [')'], rfl,
        ⟨[u], us, rfl, ⟨u, rfl, ?_⟩, ?_⟩, ')', rfl, rfl⟩)
      · simpa using hurl u (List.mem_cons_self u us)
      · intro c hc
        simpa using hurl c (List.mem_cons_of_mem u hc)

theorem split_at_brace (t post : JSString) :
    ∃ a rest, t ++ '}' :: post = a ++ '}' :: rest ∧ ∀ c ∈ a, c ≠ '}' := by
  induction t with
  | nil => exact ⟨[], post, rfl, by simp⟩
  | cons c t ih =>
    by_cases hc : c = '}'
    · subst hc
      exact ⟨[], t ++ '}' :: post, rfl, by simp⟩
    · obtain ⟨a, rest, h, ha⟩ := ih
      refine ⟨c :: a, rest, by simp [h], ?_⟩
      intro x hx
      rcases List.mem_cons.mp hx with rfl | hx
      · exact hc
      · exact ha x hx

/-- One match somewhere in the line makes the first `exec` succeed. -/
theorem Regex.exec_zero_isSome (r : Regex) (q w rest : JSString)
    (h : Regex.Matches r w rest) :
    ∃ j m next, Regex.exec r (q ++ (w ++ rest)) 0 = (some (j, m), next) := by
  have hrun := Regex.run_complete r w rest some h rfl
  have hs := Regex.searchFrom_isSome r q (w ++ rest) 0 hrun
  unfold Regex.exec
  rw [if_neg (by omega), List.drop_zero]
  cases hsf : Regex.searchFrom r (q ++ (w ++ rest)) 0 with
  | none => rw [hsf] at hs; exact absurd hs (by simp)
  | some jm => exact ⟨jm.1, jm.2, _, rfl⟩

/-- A line that holds a word matched by the pattern gets at least one error. -/
theorem execLoop_flags (lineNumber fuel : Nat) (q w rest : JSString)
    (h : Regex.Matches linkAttributePattern w rest)
    (hfuel : (q ++ (w ++ rest)).length < fuel) :
    ∃ e errs, execLoop (q ++ (w ++ rest)) lineNumber fuel 0 = some (e :: errs) := by
  obtain ⟨j, m, next, he⟩ := Regex.exec_zero_isSome linkAttributePattern q w rest h
  obtain ⟨q', rest', hs, hj, -, hnext, hm⟩ := Regex.exec_some _ _ _ _ _ _ he
  obtain ⟨g, ws, a, hshape, -⟩ := matches_linkAttributePattern m rest' hm
  have hline := congrArg List.length hs
  rw [hshape] at hline hnext
  simp only [List.length_append, List.length_cons] at hline hnext
  cases fuel with
  | zero => exact absurd hfuel (by omega)
  | succ n =>
    rw [execLoop, he]
    simp only []
    have hsome := execLoop_isSome (q ++ (w ++ rest)) lineNumber n next
      (by simp only [List.length_append, List.length_nil] at hfuel hline ⊢; omega)
      (by simp only [List.length_append, List.length_nil] at hfuel hline ⊢; omega)
    cases hl : execLoop (q ++ (w ++ rest)) lineNumber n next with
    | none => rw [hl] at hsome; exact absurd hsome (by simp)
    | some errs => exact ⟨_, errs, rfl⟩

/-- C7 at a failing input: the line `[t](a(b)c){:x}` holds the inline link
tail `](url){:attrs}` with the url `a(b)c` and the attributes `x`, both
non-empty, and the rule reports no error for it: the pattern reads the url as
`[^\)]+` and stops at the first closing parenthesis. -/
theorem forToken_failing_input :
    "[t](a(b)c)\x7b:x\x7d".toList
      = "[t".toList ++ "](".toList ++ "a(b)c".toList ++ ")\x7b:".toList ++ "x".toList
          ++ "\x7d".toList ++ [] ∧
    forToken 100 ⟨"inline".toList, 1, "[t](a(b)c)\x7b:x\x7d".toList⟩ = some [] ∧
    rule 100 [⟨"inline".toList, 1, "[t](a(b)c)\x7b:x\x7d".toList⟩] = some [] := by
  decide

/-- The lines on which the pattern does find a match: for every token of type
`inline` whose line contains one of the five tails `](url){:attrs}`,
`](url) {:attrs}`, `][ref]{:attrs}`, `][]{:attrs}`, `]{:attrs}`, with a
non-empty url holding no `)` and non-empty attributes that do not start with
`}`, `onError` is called at least once for that token. -/
theorem forToken_flags (fuel : Nat) (token : Token) (pre post attrs : JSString)
    (htype : token.type = "inline".toList)
    (hfuel : token.line.length < fuel)
    (hattrs : attrs ≠ [] ∧ attrs.head? ≠ some '}')
    (hline :
      (∃ url, url ≠ [] ∧ ')' ∉ url ∧
        token.line = pre ++ "](".toList ++ url ++ ")\x7b:".toList ++ attrs ++ "\x7d".toList ++ post) ∨
      (∃ url, url ≠ [] ∧ ')' ∉ url ∧
        token.line = pre ++ "](".toList ++ url ++ ") \x7b:".toList ++ attrs ++ "\x7d".toList ++ post) ∨
      (∃ ref, token.line = pre ++ "][".toList ++ ref ++ "]\x7b:".toList ++ attrs ++ "\x7d".toList ++ post) ∨
      token.line = pre ++ "][]\x7b:".toList ++ attrs ++ "\x7d".toList ++ post ∨
      token.line = pre ++ "]\x7b:".toList ++ attrs ++ "\x7d".toList ++ post) :
    ∃ e errs, forToken fuel token = some (e :: errs) := by
  obtain ⟨hne, hhead⟩ := hattrs
  cases attrs with
  | nil => exact absurd rfl hne
  | cons c₀ t =>
    have h₀ : c₀ ≠ '}' := by
      intro h
      exact hhead (by rw [h]; rfl)
    obtain ⟨a, rest, hsplit, ha⟩ := split_at_brace t post
    have key : ∀ q g ws,
        (g = [] ∨ ∃ url, g = '(' :: (url ++ [')']) ∧ url ≠ [] ∧ ∀ c ∈ url, c ≠ ')') →
        (∀ c ∈ ws, isSpace c = true) →
        token.line = q ++ (']' :: (g ++ (ws ++ ('{' :: ':' :: (c₀ :: a ++ ['}'])))) ++ rest) →
        ∃ e errs, forToken fuel token = some (e :: errs) := by
      intro q g ws hg hws hl
      have hm := linkAttribute_matches g ws a rest c₀ hg hws h₀ ha
      unfold forToken
      rw [if_pos htype]
      rw [hl] at hfuel ⊢
      exact execLoop_flags token.lineNumber fuel q _ rest hm hfuel
    have htail : "\x7d".toList ++ post = '}' :: post := rfl
    rcases hline with ⟨url, hu, hnot, hl⟩ | ⟨url, hu, hnot, hl⟩ | ⟨ref, hl⟩ | hl | hl
    · refine key pre ('(' :: (url ++ [')'])) []
        (Or.inr ⟨url, rfl, hu, fun c hc h => hnot (h ▸ hc)⟩) (by simp) ?_
      rw [hl]
      simp only [List.append_assoc, htail, List.cons_append, hsplit]
      simp
    · refine key pre ('(' :: (url ++ [')'])) [' ']
        (Or.inr ⟨url, rfl, hu, fun c hc h => hnot (h ▸ hc)⟩) (by simp; decide) ?_
      rw [hl]
      simp only [List.append_assoc, htail, List.cons_append, hsplit]
      simp
    · refine key (pre ++ "][".toList ++ ref) [] [] (Or.inl rfl) (by simp) ?_
      rw [hl]
      simp only [List.append_assoc, htail, List.cons_append, hsplit]
      simp
    · refine key (pre ++ "][".toList) [] [] (Or.inl rfl) (by simp) ?_
      rw [hl]
      simp only [List.append_assoc, htail, List.cons_append, hsplit]
      simp
    · refine key pre [] [] (Or.inl rfl) (by simp) ?_
      rw [hl]
      simp only [List.append_assoc, htail, List.cons_append, hsplit]
      simp

/-- The pattern at work on the line
`see [docs](https://example.com){:target="_blank"} here`. -/
theorem forToken_flags_witness :
    ∃ e errs, forToken 100
        ⟨"inline".toList, 12, "see [docs](https://example.com)\x7b:target=\"_blank\"\x7d here".toList⟩
      = some (e :: errs) :=
  forToken_flags 100
    ⟨"inline".toList, 12, "see [docs](https://example.com)\x7b:target=\"_blank\"\x7d here".toList⟩
    "see [docs".toList " here".toList "target=\"_blank\"".toList rfl (by decide)
    ⟨by decide, by decide⟩
    (Or.inl ⟨"https://example.com".toList, by decide, by decide, by decide⟩)

/-- Every error of the loop reports a match of the pattern in the line. -/
theorem execLoop_errors (line : JSString) (lineNumber : Nat) :
    ∀ fuel lastIndex errs, execLoop line lineNumber fuel lastIndex = some errs →
      ∀ e ∈ errs, e.lineNumber = lineNumber ∧
        ∃ index, e.range = (index + 1, e.context.length) ∧
          e.context = (line.drop index).take e.context.length ∧
          index + e.context.length ≤ line.length ∧
          Regex.Matches linkAttributePattern e.context
            (line.drop (index + e.context.length)) := by
  intro fuel
  induction fuel with
  | zero =>
    intro lastIndex errs h
    simp [execLoop] at h
  | succ n ih =>
    intro lastIndex errs h
    rw [execLoop] at h
    cases he : Regex.exec linkAttributePattern line lastIndex with
    | mk res next =>
      rw [he] at h
      cases res with
      | none =>
        simp only [Option.some.injEq] at h
        subst h
        intro e hmem
        exact absurd hmem (List.not_mem_nil e)
      | some jm =>
        obtain ⟨j, m⟩ := jm
        simp only [] at h
        cases hl : execLoop line lineNumber n next with
        | none => rw [hl] at h; exact absurd h (by simp)
        | some more =>
          rw [hl] at h
          simp only [Option.some.injEq] at h
          subst h
          intro e hmem
          rcases List.mem_cons.mp hmem with rfl | hmem
          · obtain ⟨q, rest, hs, hj, -, -, hm⟩ := Regex.exec_some _ _ _ _ _ _ he
            refine ⟨rfl, j, rfl, ?_, ?_, ?_⟩
            · show m = (line.drop j).take m.length
              rw [hs, hj]
              simp
            · show j + m.length ≤ line.length
              rw [hs, hj]
              simp only [List.length_append]
              omega
            · show Regex.Matches linkAttributePattern m (line.drop (j + m.length))
              have : line.drop (j + m.length) = rest := by
                rw [hs, hj, ← List.append_assoc, ← List.length_append]
                simp
              rw [this]
              exact hm
          · exact ih next more hl e hmem

/-- C8: every error reported for a token of type `inline` carries the
line number of the token, the range `[column, length]` with `column` one more
than the index at which the pattern matches in the line, and as context the
text of that length found there, which starts with `]`, contains `{:` and ends
with `}`; the loop ends on every line; a token of another type produces no
`onError` call, and every call of the rule comes from one of its tokens. -/
theorem forToken_errors (fuel : Nat) (token : Token) :
    (token.type ≠ "inline".toList → forToken fuel token = some []) ∧
    (token.line.length < fuel → (forToken fuel token).isSome = true) ∧
    (∀ errs, forToken fuel token = some errs → ∀ e ∈ errs,
      token.type = "inline".toList ∧
      e.lineNumber = token.lineNumber ∧
      ∃ index, e.range = (index + 1, e.context.length) ∧
        e.context = (token.line.drop index).take e.context.length ∧
        index + e.context.length ≤ token.line.length ∧
        Regex.Matches linkAttributePattern e.context
          (token.line.drop (index + e.context.length)) ∧
        startsWith e.context "]".toList = true ∧
        includes e.context "\x7b:".toList = true ∧
        endsWith e.context "\x7d".toList = true) ∧
    (∀ tokens errs, rule fuel tokens = some errs → ∀ e ∈ errs,
      ∃ t ∈ tokens, ∃ es, forToken fuel t = some es ∧ e ∈ es) := by
  refine ⟨?_, ?_, ?_, ?_⟩
  · intro h
    unfold forToken
    rw [if_neg h]
  · intro h
    unfold forToken
    split
    · exact execLoop_isSome _ _ fuel 0 (by omega) (by omega)
    · rfl
  · intro errs h e hmem
    unfold forToken at h
    by_cases ht : token.type = "inline".toList
    · rw [if_pos ht] at h
      obtain ⟨hn, index, hr, hc, hle, hm⟩ := execLoop_errors _ _ fuel 0 errs h e hmem
      obtain ⟨g, ws, a, hshape, -⟩ := matches_linkAttributePattern _ _ hm
      have hs := linkAttribute_shape g ws a
      rw [← hshape] at hs
      exact ⟨ht, hn, index, hr, hc, hle, hm, hs⟩
    · rw [if_neg ht] at h
      simp only [Option.some.injEq] at h
      subst h
      exact absurd hmem (List.not_mem_nil e)
  · intro tokens
    induction tokens with
    | nil =>
      intro errs h e hmem
      simp only [rule, Option.some.injEq] at h
      subst h
      exact absurd hmem (List.not_mem_nil e)
    | cons t ts ih =>
      intro errs h e hmem
      rw [rule] at h
      cases h₁ : forToken fuel t with
      | none => rw [h₁] at h; simp at h
      | some es =>
        cases h₂ : rule fuel ts with
        | none => rw [h₁, h₂] at h; simp at h
        | some more =>
          rw [h₁, h₂] at h
          simp only [Option.some.injEq] at h
          subst h
          rcases List.mem_append.mp hmem with hmem | hmem
          · exact ⟨t, List.mem_cons_self t ts, es, h₁, hmem⟩
          · obtain ⟨t', ht', es', hes', he'⟩ := ih more h₂ e hmem
            exact ⟨t', List.mem_cons_of_mem t ht', es', hes', he'⟩

/-- Witness of C8: a line with two link attributes, and a token of another
type. -/
theorem forToken_errors_witness :
    forToken 100 ⟨"paragraph_open".toList, 3, "[a](b)\x7b:c\x7d".toList⟩ = some [] ∧
    (forToken 100 ⟨"inline".toList, 3, "[a](b)\x7b:c\x7d and [d][e] \x7b:f\x7d".toList⟩).isSome = true ∧
    (∀ e ∈ [(⟨3, errorDetail, "](b)\x7b:c\x7d".toList, (3, 8)⟩ : ErrorInfo),
        ⟨3, errorDetail, "][e] \x7b:f\x7d".toList, (18, 9)⟩],
      e.lineNumber = 3 ∧ startsWith e.context "]".toList = true ∧
        includes e.context "\x7b:".toList = true ∧ endsWith e.context "\x7d".toList = true) :=
  ⟨(forToken_errors 100 ⟨"paragraph_open".toList, 3, "[a](b)\x7b:c\x7d".toList⟩).1 (by decide),
   (forToken_errors 100 ⟨"inline".toList, 3, "[a](b)\x7b:c\x7d and [d][e] \x7b:f\x7d".toList⟩).2.1
      (by decide),
   fun e he =>
    have h := (forToken_errors 100
      ⟨"inline".toList, 3, "[a](b)\x7b:c\x7d and [d][e] \x7b:f\x7d".toList⟩).2.2.1 _ (by decide) e he
    ⟨h.2.1, h.2.2.choose_spec.2.2.2.2⟩⟩

/-- C9 at a failing input: on the page `/guide/intro` the loop over the
anchors picks the anchor with path `/guide`, as it picks `/guide-extra` on the
page `/guide-extra/x`; `filterToc` returns, and the item that links to
`/guide-extra/`, whose path is neither `/guide` nor beneath it, is left without
the class `hidden`, while the items of `/other` and without a link get it. -/
theorem filterToc_failing_input :
    bestMatchLoop "/guide/intro".toList
        [⟨none, some "/guide".toList⟩, ⟨none, some "/guide-extra".toList⟩,
         ⟨none, some "/other".toList⟩]
      = some (some ⟨none, some "/guide".toList⟩, 6) ∧
    bestMatchLoop "/guide-extra/x".toList
        [⟨none, some "/guide".toList⟩, ⟨none, some "/guide-extra".toList⟩,
         ⟨none, some "/other".toList⟩]
      = some (some ⟨none, some "/guide-extra".toList⟩, 12) ∧
    "/guide-extra/".toList ≠ "/guide".toList ∧
    startsWith "/guide-extra/".toList ("/guide".toList ++ "/".toList) = false ∧
    filterToc "/guide/intro".toList
        ⟨some [⟨none, some "/guide".toList⟩, ⟨none, some "/guide-extra".toList⟩,
               ⟨none, some "/other".toList⟩],
         some [⟨[], .pathname "/guide/intro".toList⟩, ⟨[], .pathname "/guide-extra/".toList⟩,
               ⟨[], .pathname "/other/page".toList⟩, ⟨["nav".toList], .absent⟩]⟩
      = ⟨⟨some [⟨none, some "/guide".toList⟩, ⟨none, some "/guide-extra".toList⟩,
                ⟨none, some "/other".toList⟩],
          some [⟨[], .pathname "/guide/intro".toList⟩, ⟨[], .pathname "/guide-extra/".toList⟩,
                ⟨["hidden".toList], .pathname "/other/page".toList⟩,
                ⟨["nav".toList, "hidden".toList], .absent⟩]⟩,
         false⟩ := by
  decide

/-- An anchor whose `href` does not parse makes `new URL(anchor.href)` throw:
`filterToc` ends by the `TypeError` and hides nothing. -/
theorem filterToc_unparsable_anchor :
    filterToc "/guide/intro".toList
        ⟨some [⟨none, none⟩, ⟨none, some "/guide".toList⟩],
         some [⟨[], .pathname "/other/page".toList⟩, ⟨[], .absent⟩]⟩
      = ⟨⟨some [⟨none, none⟩, ⟨none, some "/guide".toList⟩],
          some [⟨[], .pathname "/other/page".toList⟩, ⟨[], .absent⟩]⟩, true⟩ := by
  decide

/-! ### Attribute lists -/

theorem lookup_setAttr_same (a : Attrs) (n v : JSString) :
    (setAttr a n v).lookup n = some v := by
  induction a with
  | nil => simp [setAttr, List.lookup]
  | cons kv rest ih =>
    obtain ⟨k, w⟩ := kv
    unfold setAttr
    by_cases hk : k = n
    · subst hk
      simp [List.lookup]
    · rw [if_neg hk]
      have : (n == k) = false := by
        simpa using fun h => hk h.symm
      simp only [List.lookup, this]
      exact ih

theorem lookup_setAttr_other (a : Attrs) (n m v : JSString) (h : m ≠ n) :
    (setAttr a n v).lookup m = a.lookup m := by
  induction a with
  | nil =>
    have : (m == n) = false := by simpa using h
    simp [setAttr, List.lookup, this]
  | cons kv rest ih =>
    obtain ⟨k, w⟩ := kv
    unfold setAttr
    by_cases hk : k = n
    · subst hk
      have : (m == k) = false := by simpa using h
      simp [List.lookup, this]
    · rw [if_neg hk]
      cases hmk : m == k with
      | true => simp [List.lookup, hmk]
      | false =>
        simp only [List.lookup, hmk]
        exact ih

theorem setAttr_keys (a : Attrs) (n v : JSString) (h : (a.lookup n).isSome = true) :
    (setAttr a n v).map Prod.fst = a.map Prod.fst := by
  induction a with
  | nil => simp [List.lookup] at h
  | cons kv rest ih =>
    obtain ⟨k, w⟩ := kv
    unfold setAttr
    by_cases hk : k = n
    · rw [if_pos hk]
      rfl
    · rw [if_neg hk]
      have hnk : (n == k) = false := by
        simpa using fun h => hk h.symm
      simp only [List.lookup, hnk] at h
      simp only [List.map_cons, ih h]

theorem fix_toJSValue_none (O : JSString) : fix O (toJSValue none) = none := rfl

/-- The value of the attribute `n` after the loop body for `n`. -/
theorem lookup_fixAttr_same (O : JSString) (a : Attrs) (n : JSString) :
    (fixAttr O a n).lookup n =
      (match fix O (toJSValue (a.lookup n)) with
       | some f => some f
       | none => a.lookup n) := by
  unfold fixAttr
  cases h : fix O (toJSValue (a.lookup n)) with
  | none => rfl
  | some f => exact lookup_setAttr_same a n f

theorem lookup_fixAttr_other (O : JSString) (a : Attrs) (n m : JSString) (h : m ≠ n) :
    (fixAttr O a n).lookup m = a.lookup m := by
  unfold fixAttr
  cases fix O (toJSValue (a.lookup n)) with
  | none => rfl
  | some f => exact lookup_setAttr_other a n m f h

theorem fixAttr_keys (O : JSString) (a : Attrs) (n : JSString) :
    (fixAttr O a n).map Prod.fst = a.map Prod.fst := by
  unfold fixAttr
  cases h : fix O (toJSValue (a.lookup n)) with
  | none => rfl
  | some f =>
    apply setAttr_keys
    cases hl : a.lookup n with
    | none => rw [hl] at h; exact absurd h (by simp [fix_toJSValue_none])
    | some v => rfl

theorem lookup_isSome_fixAttr (O : JSString) (a : Attrs) (n m : JSString) :
    ((fixAttr O a n).lookup m).isSome = (a.lookup m).isSome := by
  by_cases h : m = n
  · subst h
    rw [lookup_fixAttr_same]
    cases hf : fix O (toJSValue (a.lookup m)) with
    | none => rfl
    | some f =>
      cases hl : a.lookup m with
      | none => rw [hl] at hf; exact absurd hf (by simp [fix_toJSValue_none])
      | some v => rfl
  · rw [lookup_fixAttr_other O a n m h]

theorem startsWith_slash_cons (c : Char) (t u : JSString) :
    startsWith (c :: t) "/".toList = startsWith (c :: u) "/".toList := by
  show List.isPrefixOf ['/'] (c :: t) = List.isPrefixOf ['/'] (c :: u)
  simp [List.isPrefixOf]

/-- A rewritten URL is not rewritten again. -/
theorem fix_fix (O : JSString) (hO : startsWith O "/".toList = false) (v : JSValue)
    (f : JSString) (h : fix O v = some f) : fix O (.string f) = none := by
  have hincl : ∀ x y : JSString, includes (x ++ BASE ++ y) BASE = true := by
    intro x y
    exact (includes_iff _ _).mpr ⟨x, y, rfl⟩
  cases v with
  | string s =>
    have hs : s ≠ [] := by
      rintro rfl
      simp [fix] at h
    rw [fix_string O s hs] at h
    have hfne : f ≠ [] := by
      have := truthy_fix O (.string s)
      rw [fix_string O s hs, h] at this
      intro hf
      rw [hf] at this
      exact absurd this (by decide)
    rw [fix_string O f hfne]
    cases hf : fixFull O s with
    | some r =>
      rw [hf] at h
      simp only [Option.orElse, Option.some.injEq] at h
      subst h
      obtain ⟨p, -, -, -, hr⟩ := fixFull_eq_some O s r hf
      subst hr
      have h1 : fixFull O (O ++ BASE ++ p) = none := by
        unfold fixFull
        rw [hincl O p]
        simp
      have h2 : fixRelative (O ++ BASE ++ p) = none := by
        unfold fixRelative
        cases O with
        | nil =>
          have : startsWith ([] ++ BASE ++ p) BASE = true :=
            (startsWith_iff _ _).mpr ⟨p, by simp⟩
          rw [this]
          simp
        | cons c t =>
          have hc : startsWith (c :: t ++ BASE ++ p) "/".toList = false := by
            rw [← hO]
            exact startsWith_slash_cons c _ _
          rw [hc]
          simp
      rw [h1, h2]
      rfl
    | none =>
      rw [hf] at h
      simp only [Option.orElse] at h
      obtain ⟨-, -, -, hr⟩ := fixRelative_eq_some s f h
      subst hr
      have h1 : fixFull O (BASE ++ s) = none := by
        unfold fixFull
        have := hincl [] s
        simp only [List.nil_append] at this
        rw [this]
        simp
      have h2 : fixRelative (BASE ++ s) = none := by
        unfold fixRelative
        rw [startsWith_append_self]
        simp
      rw [h1, h2]
      rfl
  | _ => simp [fix] at h

/-- After the loop body for `n`, the value of `n` is not rewritable. -/
theorem fix_lookup_fixAttr (O : JSString) (hO : startsWith O "/".toList = false) (a : Attrs)
    (n : JSString) : fix O (toJSValue ((fixAttr O a n).lookup n)) = none := by
  rw [lookup_fixAttr_same]
  cases hf : fix O (toJSValue (a.lookup n)) with
  | none => exact hf
  | some f => exact fix_fix O hO _ f hf

theorem fixAttr_eq_self (O : JSString) (a : Attrs) (n : JSString)
    (h : fix O (toJSValue (a.lookup n)) = none) : fixAttr O a n = a := by
  unfold fixAttr
  rw [h]

theorem lookup_fixAttrs_src (O : JSString) (a : Attrs) :
    (fixAttrs O a).lookup "src".toList = (fixAttr O a "src".toList).lookup "src".toList := by
  unfold fixAttrs
  rw [lookup_fixAttr_other _ _ _ _ (by decide), lookup_fixAttr_other _ _ _ _ (by decide)]

theorem lookup_fixAttrs_href (O : JSString) (a : Attrs) :
    (fixAttrs O a).lookup "href".toList
      = (fixAttr O (fixAttr O a "src".toList) "href".toList).lookup "href".toList := by
  unfold fixAttrs
  rw [lookup_fixAttr_other _ _ _ _ (by decide)]

theorem selected_fixAttrs (O : JSString) (a : Attrs) :
    selected (fixAttrs O a) = selected a := by
  unfold selected fixAttrs
  simp only [lookup_isSome_fixAttr]

theorem fixAttrs_keys (O : JSString) (a : Attrs) :
    (fixAttrs O a).map Prod.fst = a.map Prod.fst := by
  unfold fixAttrs
  simp only [fixAttr_keys]

/-- Running the loop over the three names a second time changes nothing. -/
theorem fixAttrs_idem (O : JSString) (hO : startsWith O "/".toList = false) (a : Attrs) :
    fixAttrs O (fixAttrs O a) = fixAttrs O a := by
  have h1 : fix O (toJSValue ((fixAttrs O a).lookup "src".toList)) = none := by
    rw [lookup_fixAttrs_src]
    exact fix_lookup_fixAttr O hO a _
  have h2 : fix O (toJSValue ((fixAttrs O a).lookup "href".toList)) = none := by
    rw [lookup_fixAttrs_href]
    exact fix_lookup_fixAttr O hO _ _
  have h3 : fix O (toJSValue ((fixAttrs O a).lookup "xlink:href".toList)) = none := by
    unfold fixAttrs
    exact fix_lookup_fixAttr O hO _ _
  generalize fixAttrs O a = b at h1 h2 h3
  unfold fixAttrs
  rw [fixAttr_eq_self O b _ h1, fixAttr_eq_self O b _ h2, fixAttr_eq_self O b _ h3]

theorem fixSelected_of_selected (O : JSString) (a : Attrs) (h : selected a = true) :
    fixSelected O a = fixAttrs O a := by
  unfold fixSelected
  rw [if_pos h]

theorem fixSelected_of_not_selected (O : JSString) (a : Attrs) (h : selected a = false) :
    fixSelected O a = a := by
  unfold fixSelected
  rw [h]
  rfl

theorem fixSelected_idem (O : JSString) (hO : startsWith O "/".toList = false) (a : Attrs) :
    fixSelected O (fixSelected O a) = fixSelected O a := by
  cases h : selected a with
  | true =>
    rw [fixSelected_of_selected O a h,
      fixSelected_of_selected O _ (by rw [selected_fixAttrs]; exact h), fixAttrs_idem O hO]
  | false =>
    rw [fixSelected_of_not_selected O a h, fixSelected_of_not_selected O a h]

theorem fixAttrs_fixSelected (O : JSString) (hO : startsWith O "/".toList = false) (a : Attrs) :
    fixAttrs O (fixSelected O a) = fixAttrs O a := by
  cases h : selected a with
  | true => rw [fixSelected_of_selected O a h, fixAttrs_idem O hO]
  | false => rw [fixSelected_of_not_selected O a h]

/-- What the loop over the three names does to one attribute list, in the
terms of the attributes read back afterwards. -/
theorem fixAttrs_spec (O : JSString) (hO : startsWith O "/".toList = false) (a : Attrs) :
    (∀ n, n = "src".toList ∨ n = "href".toList →
      (fixAttrs O a).lookup n =
        (match fix O (toJSValue (a.lookup n)) with
         | some f => some f
         | none => a.lookup n) ∧
      fix O (toJSValue ((fixAttrs O a).lookup n)) = none) ∧
    (∀ n, n ≠ "src".toList → n ≠ "href".toList → n ≠ "xlink:href".toList →
      (fixAttrs O a).lookup n = a.lookup n) ∧
    (fixAttrs O a).map Prod.fst = a.map Prod.fst := by
  refine ⟨?_, ?_, fixAttrs_keys O a⟩
  · rintro n (rfl | rfl)
    · constructor
      · rw [lookup_fixAttrs_src, lookup_fixAttr_same]
      · rw [lookup_fixAttrs_src]
        exact fix_lookup_fixAttr O hO a _
    · constructor
      · rw [lookup_fixAttrs_href, lookup_fixAttr_same,
          lookup_fixAttr_other _ _ _ _ (by decide)]
      · rw [lookup_fixAttrs_href]
        exact fix_lookup_fixAttr O hO _ _
  · intro n h1 h2 h3
    unfold fixAttrs
    rw [lookup_fixAttr_other _ _ _ _ h3, lookup_fixAttr_other _ _ _ _ h2,
      lookup_fixAttr_other _ _ _ _ h1]

/-- The same for a descendant, which is visited only when it is selected. -/
theorem fixSelected_spec (O : JSString) (hO : startsWith O "/".toList = false) (a : Attrs) :
    (∀ n, n = "src".toList ∨ n = "href".toList →
      (fixSelected O a).lookup n =
        (match fix O (toJSValue (a.lookup n)) with
         | some f => some f
         | none => a.lookup n) ∧
      fix O (toJSValue ((fixSelected O a).lookup n)) = none) ∧
    (∀ n, n ≠ "src".toList → n ≠ "href".toList → n ≠ "xlink:href".toList →
      (fixSelected O a).lookup n = a.lookup n) ∧
    (fixSelected O a).map Prod.fst = a.map Prod.fst := by
  cases h : selected a with
  | true =>
    rw [fixSelected_of_selected O a h]
    exact fixAttrs_spec O hO a
  | false =>
    rw [fixSelected_of_not_selected O a h]
    refine ⟨?_, fun _ _ _ _ => rfl, rfl⟩
    have hn : a.lookup "src".toList = none ∧ a.lookup "href".toList = none := by
      unfold selected at h
      simp only [Bool.or_eq_false_iff] at h
      constructor
      · cases hl : a.lookup "src".toList with
        | none => rfl
        | some v => rw [hl] at h; exact absurd h.1 (by simp)
      · cases hl : a.lookup "href".toList with
        | none => rfl
        | some v => rw [hl] at h; exact absurd h.2 (by simp)
    rintro n (rfl | rfl)
    · rw [hn.1]
      exact ⟨rfl, rfl⟩
    · rw [hn.2]
      exact ⟨rfl, rfl⟩

/-! ### The tree -/

theorem Shape.sub_node_cons (cs : List Shape) (i : Nat) (q : NodeId) :
    Shape.sub (.node cs) (i :: q) = (cs[i]?).bind (fun c => Shape.sub c q) := by
  rw [Shape.sub]
  cases cs[i]? <;> rfl

theorem Shape.sub_nil (s : Shape) : Shape.sub s [] = some s := by
  cases s
  rfl

mutual
theorem Shape.mem_descendants (s : Shape) (q : NodeId) :
    q ∈ s.descendants ↔ q ≠ [] ∧ (s.sub q).isSome = true := by
  match s with
  | .node cs =>
    rw [Shape.descendants, Shape.mem_descendantsFrom cs 0 q]
    constructor
    · rintro ⟨j, r, c, rfl, hc, hr⟩
      refine ⟨by simp, ?_⟩
      rw [Shape.sub_node_cons, Nat.zero_add, hc]
      exact hr
    · rintro ⟨hne, hsub⟩
      cases q with
      | nil => exact absurd rfl hne
      | cons j r =>
        rw [Shape.sub_node_cons] at hsub
        cases hc : cs[j]? with
        | none => rw [hc] at hsub; exact absurd hsub (by simp)
        | some c =>
          rw [hc] at hsub
          exact ⟨j, r, c, by rw [Nat.zero_add], hc, hsub⟩
theorem Shape.mem_descendantsFrom (cs : List Shape) (i : Nat) (q : NodeId) :
    q ∈ Shape.descendantsFrom cs i ↔
      ∃ j r c, q = (i + j) :: r ∧ cs[j]? = some c ∧ (Shape.sub c r).isSome = true := by
  match cs with
  | [] =>
    rw [Shape.descendantsFrom]
    constructor
    · intro h; exact absurd h (List.not_mem_nil q)
    · rintro ⟨j, r, c, -, hc, -⟩
      simp at hc
  | c :: cs =>
    rw [Shape.descendantsFrom, List.mem_append, List.mem_cons, List.mem_map,
      Shape.mem_descendantsFrom cs (i + 1) q]
    constructor
    · rintro ((rfl | ⟨r, hr, rfl⟩) | ⟨j, r, c', rfl, hc, hr⟩)
      · exact ⟨0, [], c, rfl, List.getElem?_cons_zero, by rw [Shape.sub_nil]; rfl⟩
      · exact ⟨0, r, c, rfl, List.getElem?_cons_zero, ((Shape.mem_descendants c r).mp hr).2⟩
      · exact ⟨j + 1, r, c', by rw [Nat.add_assoc, Nat.add_comm 1 j],
          by rw [List.getElem?_cons_succ]; exact hc, hr⟩
    · rintro ⟨j, r, c', rfl, hc, hr⟩
      cases j with
      | zero =>
        simp only [List.getElem?_cons_zero, Option.some.injEq] at hc
        subst hc
        left
        cases r with
        | nil => exact Or.inl rfl
        | cons k r =>
          exact Or.inr ⟨k :: r, (Shape.mem_descendants c (k :: r)).mpr ⟨by simp, hr⟩, rfl⟩
      | succ j =>
        right
        simp only [List.getElem?_cons_succ] at hc
        exact ⟨j, r, c', by rw [Nat.add_assoc, Nat.add_comm 1 j], hc, hr⟩
end

theorem Shape.sub_append (q r : NodeId) : ∀ s : Shape,
    Shape.sub s (q ++ r) = (Shape.sub s q).bind (fun c => Shape.sub c r) := by
  induction q with
  | nil =>
    intro s
    rw [Shape.sub_nil]
    rfl
  | cons i q ih =>
    intro s
    cases s with
    | node cs =>
      rw [List.cons_append, Shape.sub_node_cons, Shape.sub_node_cons]
      cases cs[i]? with
      | none => rfl
      | some c => exact ih c

theorem Shape.height_le_heightList (cs : List Shape) (i : Nat) (c : Shape)
    (h : cs[i]? = some c) : c.height + 1 ≤ Shape.heightList cs := by
  induction cs generalizing i with
  | nil => simp at h
  | cons x xs ih =>
    rw [Shape.heightList]
    cases i with
    | zero =>
      simp only [List.getElem?_cons_zero, Option.some.injEq] at h
      subst h
      exact Nat.le_max_left _ _
    | succ i =>
      simp only [List.getElem?_cons_succ] at h
      exact Nat.le_trans (ih i h) (Nat.le_max_right _ _)

theorem Shape.height_sub_le (q : NodeId) : ∀ s s' : Shape, Shape.sub s q = some s' →
    s'.height + q.length ≤ s.height := by
  induction q with
  | nil =>
    intro s s' h
    rw [Shape.sub_nil] at h
    simp only [Option.some.injEq] at h
    subst h
    simp
  | cons i q ih =>
    intro s s' h
    cases s with
    | node cs =>
      rw [Shape.sub_node_cons] at h
      cases hc : cs[i]? with
      | none => rw [hc] at h; exact absurd h (by simp)
      | some c =>
        rw [hc] at h
        have h1 := ih c s' h
        have h2 := Shape.height_le_heightList cs i c hc
        rw [Shape.height, List.length_cons]
        omega

/-! ### `fixElement` -/

theorem fixAttribute_spec (O : JSString) (d : DOM) (el : NodeId) (n : JSString) :
    (fixAttribute O d el n).shape = d.shape ∧
    (fixAttribute O d el n).attrs el = fixAttr O (d.attrs el) n ∧
    ∀ r, r ≠ el → (fixAttribute O d el n).attrs r = d.attrs r := by
  have ht := truthy_fix O (toJSValue (getAttribute d el n))
  unfold fixAttribute fixAttr
  simp only []
  unfold getAttribute at ht ⊢
  cases hf : fix O (toJSValue ((d.attrs el).lookup n)) with
  | none => exact ⟨rfl, rfl, fun _ _ => rfl⟩
  | some f =>
    rw [hf] at ht
    simp only [ht, Option.isSome_some, if_true]
    refine ⟨rfl, ?_, ?_⟩
    · simp [setAttribute]
    · intro r hr
      simp [setAttribute, Function.update_noteq hr]

theorem ownAttributes_spec (O : JSString) (d : DOM) (el : NodeId) :
    (["src".toList, "href".toList, "xlink:href".toList].foldl
      (fun d attr => fixAttribute O d el attr) d).shape = d.shape ∧
    (["src".toList, "href".toList, "xlink:href".toList].foldl
      (fun d attr => fixAttribute O d el attr) d).attrs el = fixAttrs O (d.attrs el) ∧
    ∀ r, r ≠ el → (["src".toList, "href".toList, "xlink:href".toList].foldl
      (fun d attr => fixAttribute O d el attr) d).attrs r = d.attrs r := by
  simp only [List.foldl_cons, List.foldl_nil]
  obtain ⟨a1, a2, a3⟩ := fixAttribute_spec O d el "src".toList
  obtain ⟨b1, b2, b3⟩ := fixAttribute_spec O (fixAttribute O d el "src".toList) el "href".toList
  obtain ⟨c1, c2, c3⟩ := fixAttribute_spec O
    (fixAttribute O (fixAttribute O d el "src".toList) el "href".toList) el "xlink:href".toList
  refine ⟨by rw [c1, b1, a1], ?_, ?_⟩
  · rw [c2, b2, a2]
    rfl
  · intro r hr
    rw [c3 r hr, b3 r hr, a3 r hr]

theorem append_ne_self (el q : NodeId) (h : q ≠ []) : el ≠ el ++ q := by
  intro he
  have := congrArg List.length he
  rw [List.length_append] at this
  have hq : q.length = 0 := by omega
  exact h (List.length_eq_zero.mp hq)

/-- One step of the loop over the selected descendants keeps the invariant. -/
theorem fixInvariant_step (O : JSString) (hO : startsWith O "/".toList = false)
    (d dᵢ d' : DOM) (el q : NodeId) (s sq : Shape) (P : NodeId → Prop)
    (hq : q ∈ s.descendants) (hsq : Shape.sub s q = some sq)
    (hsel : selected (d.attrs (el ++ q)) = true)
    (hinv : FixInvariant O d dᵢ el s P)
    (hfix : FixedBelow O dᵢ d' (el ++ q) sq) :
    FixInvariant O d d' el s (fun y => P y ∨ y = el ++ q) := by
  obtain ⟨i1, i2, i3, i4, i5⟩ := hinv
  obtain ⟨f1, f2, f3, f4⟩ := hfix
  have hqne : q ≠ [] := ((Shape.mem_descendants s q).mp hq).1
  have hmem : ∀ r ∈ sq.descendants, q ++ r ∈ s.descendants := by
    intro r hr
    obtain ⟨hrne, hrs⟩ := (Shape.mem_descendants sq r).mp hr
    refine (Shape.mem_descendants s (q ++ r)).mpr ⟨by simp [hqne], ?_⟩
    rw [Shape.sub_append, hsq]
    exact hrs
  have hx : d'.attrs (el ++ q) = fixSelected O (d.attrs (el ++ q)) := by
    rw [f2, fixSelected_of_selected O _ hsel]
    rcases i3 q hq with h | h
    · rw [h]
    · rw [h, fixAttrs_fixSelected O hO]
  have hbelow : ∀ r ∈ sq.descendants,
      d'.attrs (el ++ q ++ r) = fixSelected O (d.attrs (el ++ q ++ r)) := by
    intro r hr
    rw [f3 r hr]
    have := i3 (q ++ r) (hmem r hr)
    rw [← List.append_assoc] at this
    rcases this with h | h
    · rw [h]
    · rw [h, fixSelected_idem O hO]
  have hcases : ∀ y, d'.attrs y = dᵢ.attrs y ∨
      (d'.attrs y = fixSelected O (d.attrs y) ∧ ∃ q' ∈ s.descendants, y = el ++ q') := by
    intro y
    by_cases hy : y = el ++ q
    · subst hy
      exact Or.inr ⟨hx, q, hq, rfl⟩
    · by_cases hy2 : ∃ r ∈ sq.descendants, y = el ++ q ++ r
      · obtain ⟨r, hr, rfl⟩ := hy2
        exact Or.inr ⟨hbelow r hr, q ++ r, hmem r hr, by rw [List.append_assoc]⟩
      · refine Or.inl (f4 y hy ?_)
        intro r hr he
        exact hy2 ⟨r, hr, he⟩
  refine ⟨by rw [f1, i1], ?_, ?_, ?_, ?_⟩
  · rcases hcases el with h | ⟨-, q', hq', he⟩
    · rw [h, i2]
    · exact absurd he (append_ne_self el q' ((Shape.mem_descendants s q').mp hq').1)
  · intro q' hq'
    rcases hcases (el ++ q') with h | ⟨h, -⟩
    · rw [h]
      exact i3 q' hq'
    · exact Or.inr h
  · intro y hy
    rcases hcases y with h | ⟨h, -⟩
    · rcases hy with hy | hy
      · rw [h]
        exact i4 y hy
      · subst hy
        exact hx
    · exact h
  · intro r hr hout
    rcases hcases r with h | ⟨-, q', hq', he⟩
    · rw [h]
      exact i5 r hr hout
    · exact absurd he (hout q' hq')

/-- The loop over the selected descendants, given that each call of
`fixElement` below `el` does what `FixedBelow` says. -/
theorem fixInvariant_loop (O : JSString) (hO : startsWith O "/".toList = false) (n : Nat)
    (d : DOM) (el : NodeId) (s : Shape) (hs : d.shape.sub el = some s)
    (ih : ∀ (d₀ : DOM) (x : NodeId) (sx : Shape), d₀.shape.sub x = some sx → sx.height < n →
      ∃ d', fixElement O n d₀ x = some d' ∧ FixedBelow O d₀ d' x sx)
    (hn : s.height ≤ n) :
    ∀ (l : List NodeId) (P : NodeId → Prop) (dᵢ : DOM),
      (∀ x ∈ l, ∃ q ∈ s.descendants, x = el ++ q ∧ selected (d.attrs x) = true) →
      FixInvariant O d dᵢ el s P →
      ∃ d', l.foldlM (fun d q => fixElement O n d q) dᵢ = some d' ∧
        FixInvariant O d d' el s (fun y => P y ∨ y ∈ l) := by
  intro l
  induction l with
  | nil =>
    intro P dᵢ _ hinv
    refine ⟨dᵢ, rfl, ?_⟩
    obtain ⟨i1, i2, i3, i4, i5⟩ := hinv
    refine ⟨i1, i2, i3, ?_, i5⟩
    rintro y (hy | hy)
    · exact i4 y hy
    · exact absurd hy (List.not_mem_nil y)
  | cons x l ihl =>
    intro P dᵢ hl hinv
    obtain ⟨q, hq, hx, hsel⟩ := hl x (List.mem_cons_self _ _)
    subst hx
    obtain ⟨hqne, hqs⟩ := (Shape.mem_descendants s q).mp hq
    cases hsq : Shape.sub s q with
    | none => rw [hsq] at hqs; exact absurd hqs (by simp)
    | some sq =>
      have hsub : dᵢ.shape.sub (el ++ q) = some sq := by
        rw [hinv.1, Shape.sub_append, hs]
        exact hsq
      have hlt : sq.height < n := by
        have := Shape.height_sub_le q s sq hsq
        have hlen : 0 < q.length := List.length_pos.mpr hqne
        omega
      obtain ⟨d₁, hd₁, hfix⟩ := ih dᵢ (el ++ q) sq hsub hlt
      have hinv' := fixInvariant_step O hO d dᵢ d₁ el q s sq P hq hsq hsel hinv hfix
      obtain ⟨d', hd', hfin⟩ := ihl (fun y => P y ∨ y = el ++ q) d₁
        (fun y hy => hl y (List.mem_cons_of_mem _ hy)) hinv'
      refine ⟨d', ?_, ?_⟩
      · rw [List.foldlM_cons, hd₁]
        exact hd'
      · obtain ⟨j1, j2, j3, j4, j5⟩ := hfin
        refine ⟨j1, j2, j3, ?_, j5⟩
        rintro y (hy | hy)
        · exact j4 y (Or.inl (Or.inl hy))
        · rcases List.mem_cons.mp hy with hy | hy
          · exact j4 y (Or.inl (Or.inr hy))
          · exact j4 y (Or.inr hy)

/-- With more fuel than the tree below `el` has levels, `fixElement(el)`
returns, and leaves the document described by `FixedBelow`. -/
theorem fixElement_fixed (O : JSString) (hO : startsWith O "/".toList = false) :
    ∀ (fuel : Nat) (d : DOM) (el : NodeId) (s : Shape), d.shape.sub el = some s →
      s.height < fuel → ∃ d', fixElement O fuel d el = some d' ∧ FixedBelow O d d' el s := by
  intro fuel
  induction fuel with
  | zero =>
    intro d el s _ h
    exact absurd h (by omega)
  | succ n ih =>
    intro d el s hs hlt
    obtain ⟨o1, o2, o3⟩ := ownAttributes_spec O d el
    rw [fixElement]
    generalize (["src".toList, "href".toList, "xlink:href".toList].foldl
      (fun d attr => fixAttribute O d el attr) d) = d₁ at o1 o2 o3
    have hne : ∀ q ∈ s.descendants, el ++ q ≠ el := by
      intro q hq h
      exact append_ne_self el q ((Shape.mem_descendants s q).mp hq).1 h.symm
    have hqs : ∀ x, x ∈ querySelectorAll d₁ el ↔
        ∃ q ∈ s.descendants, x = el ++ q ∧ selected (d.attrs x) = true := by
      intro x
      unfold querySelectorAll
      rw [o1, hs]
      simp only [List.mem_filter, List.mem_map]
      constructor
      · rintro ⟨⟨q, hq, rfl⟩, hsel⟩
        rw [o3 _ (hne q hq)] at hsel
        exact ⟨q, hq, rfl, hsel⟩
      · rintro ⟨q, hq, rfl, hsel⟩
        refine ⟨⟨q, hq, rfl⟩, ?_⟩
        rw [o3 _ (hne q hq)]
        exact hsel
    have hinv : FixInvariant O d d₁ el s (fun _ => False) := by
      refine ⟨o1, o2, ?_, ?_, ?_⟩
      · intro q hq
        exact Or.inl (o3 _ (hne q hq))
      · intro x hx
        exact absurd hx id
      · intro r hr _
        exact o3 r hr
    obtain ⟨d', hd', j1, j2, j3, j4, j5⟩ := fixInvariant_loop O hO n d el s hs ih (by omega)
      (querySelectorAll d₁ el) (fun _ => False) d₁ (fun x hx => (hqs x).mp hx) hinv
    refine ⟨d', hd', j1, j2, ?_, j5⟩
    intro q hq
    cases hsel : selected (d.attrs (el ++ q)) with
    | true =>
      exact j4 _ (Or.inr ((hqs _).mpr ⟨q, hq, rfl, hsel⟩))
    | false =>
      rcases j3 q hq with h | h
      · rw [h, fixSelected_of_not_selected O _ hsel]
      · exact h

theorem onMutations_inner (O : JSString) (fuel : Nat) (l : List AddedNode) : ∀ d : DOM,
    l.foldlM (fun d node => if node.nodeType = 1 then fixElement O fuel d node.id else some d) d
      = (l.filter (fun node => node.nodeType = 1)).foldlM
          (fun d node => fixElement O fuel d node.id) d := by
  induction l with
  | nil => intro d; rfl
  | cons node l ih =>
    intro d
    by_cases h : node.nodeType = 1
    · rw [List.foldlM_cons, if_pos h, List.filter_cons_of_pos (by simpa using h),
        List.foldlM_cons]
      cases fixElement O fuel d node.id with
      | none => rfl
      | some d' => exact ih d'
    · rw [List.foldlM_cons, if_neg h, List.filter_cons_of_neg (by simpa using h)]
      exact ih d

theorem onMutations_eq (O : JSString) (fuel : Nat) (mutations : List (List AddedNode)) :
    ∀ d : DOM, onMutations O fuel d mutations
      = (mutations.flatten.filter (fun node => node.nodeType = 1)).foldlM
          (fun d node => fixElement O fuel d node.id) d := by
  induction mutations with
  | nil => intro d; rfl
  | cons l ms ih =>
    intro d
    unfold onMutations at ih ⊢
    rw [List.foldlM_cons, List.flatten_cons, List.filter_append, List.foldlM_append,
      onMutations_inner]
    cases (l.filter (fun node => node.nodeType = 1)).foldlM
        (fun d node => fixElement O fuel d node.id) d with
    | none => rfl
    | some d' => exact ih d'

/-- C5: with `location.origin` not starting with a slash and more fuel than
the tree below `el` has levels, `fixElement(el)` returns; the tree of elements
is the one before the call; every element `e` of the subtree of `el`, `el`
included, reads back for `src` and for `href` the value `fix(old)` when that is
not `null` and the old value otherwise, a value that `fix` maps to `null`; the
attributes other than `src`, `href` and `xlink:href` read back as before and no
attribute is added or removed; elements outside the subtree keep their
attributes.  The `DOMContentLoaded` listener is `fixElement` on the body, and
the observer callback applies `fixElement`, in order, to the added nodes whose
`nodeType` is 1 and to no other. -/
theorem fixElement_spec (ORIGIN : JSString) (hO : startsWith ORIGIN "/".toList = false)
    (fuel : Nat) (d : DOM) (el : NodeId) (s : Shape)
    (hs : d.shape.sub el = some s) (hfuel : s.height < fuel) :
    (∃ d', fixElement ORIGIN fuel d el = some d' ∧
      d'.shape = d.shape ∧
      (∀ e, (e = el ∨ ∃ q ∈ s.descendants, e = el ++ q) →
        (∀ a, a = "src".toList ∨ a = "href".toList →
          getAttribute d' e a =
            (match fix ORIGIN (toJSValue (getAttribute d e a)) with
             | some f => some f
             | none => getAttribute d e a) ∧
          fix ORIGIN (toJSValue (getAttribute d' e a)) = none) ∧
        (∀ a, a ≠ "src".toList → a ≠ "href".toList → a ≠ "xlink:href".toList →
          getAttribute d' e a = getAttribute d e a) ∧
        (d'.attrs e).map Prod.fst = (d.attrs e).map Prod.fst) ∧
      (∀ e, e ≠ el → (∀ q ∈ s.descendants, e ≠ el ++ q) → d'.attrs e = d.attrs e)) ∧
    onDOMContentLoaded ORIGIN fuel d el = fixElement ORIGIN fuel d el ∧
    (∀ mutations : List (List AddedNode), onMutations ORIGIN fuel d mutations
      = (mutations.flatten.filter (fun node => node.nodeType = 1)).foldlM
          (fun d node => fixElement ORIGIN fuel d node.id) d) := by
  refine ⟨?_, rfl, fun mutations => onMutations_eq ORIGIN fuel mutations d⟩
  · obtain ⟨d', hd', f1, f2, f3, f4⟩ := fixElement_fixed ORIGIN hO fuel d el s hs hfuel
    refine ⟨d', hd', f1, ?_, f4⟩
    rintro e (rfl | ⟨q, hq, rfl⟩)
    · unfold getAttribute
      rw [f2]
      exact fixAttrs_spec ORIGIN hO _
    · unfold getAttribute
      rw [f3 q hq]
      exact fixSelected_spec ORIGIN hO _

/-- Witness of C5 on `exampleDocument`, with `fixElement` applied to the root. -/
theorem fixElement_spec_witness :
    ∃ d', fixElement "https://h.io".toList 3 exampleDocument [] = some d' ∧
      d'.shape = exampleShape ∧
      getAttribute d' [0, 0] "src".toList = some "/commerce-testing/hlx_statics/i.png".toList ∧
      fix "https://h.io".toList (toJSValue (getAttribute d' [1] "href".toList)) = none ∧
      getAttribute d' [0, 0] "alt".toList = some "i".toList := by
  obtain ⟨d', h1, h2, h3, -⟩ :=
    (fixElement_spec "https://h.io".toList (by decide) 3 exampleDocument [] exampleShape rfl
      (by decide)).1
  refine ⟨d', h1, h2, ?_, ?_, ?_⟩
  · exact ((h3 [0, 0] (Or.inr ⟨[0, 0], by decide, rfl⟩)).1 _ (Or.inl rfl)).1.trans (by decide)
  · exact ((h3 [1] (Or.inr ⟨[1], by decide, rfl⟩)).1 _ (Or.inr rfl)).2
  · exact ((h3 [0, 0] (Or.inr ⟨[0, 0], by decide, rfl⟩)).2.1 _ (by decide) (by decide)
      (by decide)).trans (by decide)

end CommerceTesting
